import Mathlib

/-!
Verification development for the Marscoin ledger core (a simplified
proof-of-work cryptocurrency: crypto utilities, UTXO transactions, blocks,
a blockchain state machine and a wallet).

The embedding is a faithful functional translation of the TypeScript source:

* The external SHA-256 primitive (Web Crypto) is modeled as an explicit
  function parameter `sha256 : String → String`; every definition that the
  source feeds through hashing is parameterized by it.  Claims that need
  hash properties take them as hypotheses and witnesses instantiate `sha256`
  with concrete computable functions.
* JavaScript `number` values used as money/fees/timestamps are modeled as
  `Int` (all relevant source values are integers); array indices, heights,
  nonces and difficulties as `Nat`.  The one floating-point computation
  (the retarget ratio) is modeled with `Rat`, which agrees with IEEE double
  division for every timestamp in the representable range because the
  compared thresholds 0.25 and 4 are exactly representable and the quotient
  grid is far coarser than one ulp.
* `Date.now()` is modeled by explicit time parameters.
* The in-place mutation the source performs (recomputing `this.hash`,
  `this.header.merkleRoot`, filling transaction hashes) is modeled by
  returning the updated record; callers thread the updated value exactly
  where the source keeps using the mutated object.
* `Map<string, UTXO>` is modeled as an insertion-ordered association list:
  `set` replaces in place or appends, `delete` removes the entry, matching
  the iteration-order semantics of JavaScript `Map`.
-/

namespace Marscoin

set_option maxRecDepth 100000

/-! JSON serialization fragments.  The source hashes `JSON.stringify` of
plain records; key order is insertion order, reproduced literally below.
The escape map covers the quote and backslash; the control-character
escapes of `JSON.stringify` are outside the modeled data domain (hex
strings, addresses, decimal numbers). -/

def jsonEscapeChar (c : Char) : String :=
  if c = '"' then "\\\"" else if c = '\\' then "\\\\" else String.singleton c

def jsonEscape (s : String) : String :=
  String.join (s.data.map jsonEscapeChar)

def jstr (s : String) : String :=
  "\"" ++ jsonEscape s ++ "\""

def jsonArr (elems : List String) : String :=
  "[" ++ String.intercalate "," elems ++ "]"

/-- Character-level model of the JavaScript `startsWith` used by the
proof-of-work check (on the ASCII strings of this code base, UTF-16 code
units and characters coincide). -/
def stringStartsWith (s target : String) : Bool :=
  s.data.take target.data.length == target.data

/-- Character-level model of the JavaScript `slice(0, n)` used by key and
address derivation (same ASCII remark). -/
def stringTake (s : String) (n : Nat) : String :=
  String.mk (s.data.take n)

/-! Data model (interfaces from the source). -/

structure TransactionInput where
  previousTxHash : String
  outputIndex : Nat
  signature : String
  publicKey : String
deriving DecidableEq, Repr

structure TransactionOutput where
  amount : Int
  recipientAddress : String
deriving DecidableEq, Repr

structure UTXO where
  txHash : String
  outputIndex : Nat
  output : TransactionOutput
  blockHeight : Nat
deriving DecidableEq, Repr

structure Transaction where
  hash : String
  timestamp : Int
  inputs : List TransactionInput
  outputs : List TransactionOutput
  fee : Int
deriving DecidableEq, Repr

structure BlockHeader where
  version : Nat
  previousBlockHash : String
  merkleRoot : String
  timestamp : Int
  difficulty : Nat
  nonce : Nat
deriving DecidableEq, Repr

structure Block where
  hash : String
  header : BlockHeader
  transactions : List Transaction
  height : Nat
deriving DecidableEq, Repr

structure Blockchain where
  chain : List Block
  difficulty : Nat
  utxoSet : List (String × UTXO)
  mempool : List Transaction
deriving DecidableEq, Repr

/-! Ledger constants (readonly fields of the Blockchain class). -/

def maxSupply : Int := 21000000

def miningReward : Int := 50

def creatorAddress : String := "1a964aaf3bc24324b1b9be5a2b115f2108ea309e"

def creatorAllocation : Int := 1000000

def targetBlockTime : Int := 5000

def difficultyAdjustmentInterval : Nat := 10

/-- The all-zero previous-hash sentinel marking a coinbase input. -/
def coinbasePrevHash : String :=
  "0000000000000000000000000000000000000000000000000000000000000000"

/-- The reserved max-value output-index sentinel of a coinbase input. -/
def coinbaseOutputIndex : Nat := 0xFFFFFFFF

/-! UTXO map: an insertion-ordered association list with JavaScript `Map`
update semantics (`set` on an existing key updates in place). -/

def utxoKey (txHash : String) (outputIndex : Nat) : String :=
  txHash ++ ":" ++ toString outputIndex

def setEntry (m : List (String × UTXO)) (k : String) (v : UTXO) :
    List (String × UTXO) :=
  match m with
  | [] => [(k, v)]
  | (k1, v1) :: rest =>
      if k1 = k then (k, v) :: rest else (k1, v1) :: setEntry rest k v

def deleteEntry (m : List (String × UTXO)) (k : String) :
    List (String × UTXO) :=
  match m with
  | [] => []
  | (k1, v1) :: rest =>
      if k1 = k then rest else (k1, v1) :: deleteEntry rest k

def lookupEntry (m : List (String × UTXO)) (k : String) : Option UTXO :=
  match m with
  | [] => none
  | (k1, v1) :: rest => if k1 = k then some v1 else lookupEntry rest k

def hasKey (m : List (String × UTXO)) (k : String) : Bool :=
  (lookupEntry m k).isSome

section Core

variable (sha256 : String → String)

/-! Crypto utilities (the source file of hash, key, signature and
proof-of-work primitives). -/

/-- Public key derivation: a 04-prefixed truncation of a tagged hash. -/
def generatePublicKey (privateKey : String) : String :=
  "04" ++ stringTake (sha256 ("public_" ++ privateKey)) 62

/-- Address derivation: truncated double hash of the public key. -/
def generateAddress (publicKey : String) : String :=
  stringTake (sha256 (sha256 publicKey)) 40

/-- Signing: hash of the message hash joined with the private key. -/
def signMessage (message privateKey : String) : String :=
  sha256 (sha256 message ++ "_" ++ privateKey)

/-- The demo helper that pretends to recover a private key from a public
key; it simply hashes a tagged copy of the public key. -/
def getPrivateKeyFromPublic (publicKey : String) : String :=
  sha256 ("reverse_" ++ publicKey)

/-- Verification recomputes the expected signature from the reconstructed
key and compares. -/
def verifySignature (message signature publicKey : String) : Bool :=
  signature ==
    sha256 (sha256 message ++ "_" ++ getPrivateKeyFromPublic sha256 publicKey)

/-- One level of the merkle reduction: pairwise combination, duplicating the
last element when the level has odd length. -/
def combinePairs : List String → List String
  | [] => []
  | [left] => [sha256 (left ++ left)]
  | left :: right :: rest => sha256 (left ++ right) :: combinePairs rest

theorem combinePairs_length_le :
    ∀ l : List String, (combinePairs sha256 l).length ≤ l.length
  | [] => Nat.le_refl _
  | [_] => Nat.le_refl _
  | _ :: _ :: rest => by
      simpa [combinePairs] using
        Nat.succ_le_succ (Nat.le_succ_of_le (combinePairs_length_le rest))

/-- Level recursion of the merkle reduction, with structural fuel so the
kernel can evaluate it.  Each recursive step strictly shrinks the level, so
any fuel of at least the list length never reaches the exhaustion branch;
`calculateMerkleRootAux_fuel_irrelevant` makes that precise and recovers
the defining equations of the source recursion. -/
def calculateMerkleRootAux : Nat → List String → String
  | _, [] => sha256 ""
  | _, [h1] => h1
  | 0, _ :: _ :: _ => sha256 ""
  | fuel + 1, h1 :: h2 :: rest =>
      calculateMerkleRootAux fuel (combinePairs sha256 (h1 :: h2 :: rest))

/-- Merkle root: empty list hashes the empty input, a singleton is returned
as is, otherwise one combined level is recursed on. -/
def calculateMerkleRoot (hashes : List String) : String :=
  calculateMerkleRootAux sha256 hashes.length hashes

theorem calculateMerkleRootAux_fuel_irrelevant :
    ∀ (fuel1 : Nat) (l : List String) (fuel2 : Nat), l.length ≤ fuel1 →
      l.length ≤ fuel2 →
      calculateMerkleRootAux sha256 fuel1 l = calculateMerkleRootAux sha256 fuel2 l := by
  intro fuel1
  induction fuel1 with
  | zero =>
      intro l fuel2 h1 _
      match l with
      | [] => cases fuel2 <;> rfl
  | succ f ih =>
      intro l fuel2 h1 h2
      match l with
      | [] => cases fuel2 <;> rfl
      | [x] => cases fuel2 <;> rfl
      | a :: b :: rest =>
          match fuel2, h2 with
          | f2 + 1, h2 =>
            show calculateMerkleRootAux sha256 f _ = calculateMerkleRootAux sha256 f2 _
            have hlen : (combinePairs sha256 (a :: b :: rest)).length
                ≤ (a :: b :: rest).length - 1 := by
              simp only [combinePairs, List.length_cons]
              exact Nat.succ_le_succ (combinePairs_length_le sha256 rest)
            exact ih _ f2
              (le_trans hlen (by simpa using Nat.le_of_succ_le_succ h1))
              (le_trans hlen (by simpa using Nat.le_of_succ_le_succ h2))

/-- The three defining equations of the source merkle recursion, recovered
from the fueled definition. -/
theorem calculateMerkleRoot_eq_nil : calculateMerkleRoot sha256 [] = sha256 "" := rfl

theorem calculateMerkleRoot_eq_single (h1 : String) :
    calculateMerkleRoot sha256 [h1] = h1 := rfl

theorem calculateMerkleRoot_eq_step (h1 h2 : String) (rest : List String) :
    calculateMerkleRoot sha256 (h1 :: h2 :: rest)
      = calculateMerkleRoot sha256 (combinePairs sha256 (h1 :: h2 :: rest)) := by
  show calculateMerkleRootAux sha256 _ _ = _
  have hlen : (combinePairs sha256 (h1 :: h2 :: rest)).length
      ≤ (h1 :: h2 :: rest).length - 1 := by
    simp only [combinePairs, List.length_cons]
    exact Nat.succ_le_succ (combinePairs_length_le sha256 rest)
  calc calculateMerkleRootAux sha256 (h1 :: h2 :: rest).length (h1 :: h2 :: rest)
      = calculateMerkleRootAux sha256 ((h1 :: h2 :: rest).length - 1)
          (combinePairs sha256 (h1 :: h2 :: rest)) := rfl
    _ = calculateMerkleRootAux sha256
          (combinePairs sha256 (h1 :: h2 :: rest)).length
          (combinePairs sha256 (h1 :: h2 :: rest)) :=
        calculateMerkleRootAux_fuel_irrelevant sha256 _ _ _
          (by simpa using hlen) (Nat.le_refl _)

end Core

/-- Proof-of-work check: the hash must start with `difficulty` zero
characters. -/
def isValidProofOfWork (hash : String) (difficulty : Nat) : Bool :=
  let target := String.mk (List.replicate difficulty '0')
  stringStartsWith hash target

/-- Number-to-hex helper from the source (unused by the claims, kept for
completeness of the crypto module). -/
def numberToHex (num : Nat) (padding : Nat := 8) : String :=
  (String.mk (Nat.toDigits 16 num)).leftpad padding '0'

/-! Transaction operations.  `calculateHash` and `getDataForSigning` build
the identical JSON string in the source (inputs without signatures, outputs,
timestamp, fee); the single builder below is shared by both. -/

def TransactionInput.signingJson (i : TransactionInput) : String :=
  "\x7b\"previousTxHash\":" ++ jstr i.previousTxHash ++
    ",\"outputIndex\":" ++ toString i.outputIndex ++
    ",\"publicKey\":" ++ jstr i.publicKey ++ "\x7d"

def TransactionOutput.json (o : TransactionOutput) : String :=
  "\x7b\"amount\":" ++ toString o.amount ++
    ",\"recipientAddress\":" ++ jstr o.recipientAddress ++ "\x7d"

/-- Canonical signable encoding: inputs reduced to their
previous-hash/index/public-key triples, then outputs, timestamp and fee.
Signatures and the cached hash are excluded. -/
def Transaction.getDataForSigning (tx : Transaction) : String :=
  "\x7b\"inputs\":" ++ jsonArr (tx.inputs.map TransactionInput.signingJson) ++
    ",\"outputs\":" ++ jsonArr (tx.outputs.map TransactionOutput.json) ++
    ",\"timestamp\":" ++ toString tx.timestamp ++
    ",\"fee\":" ++ toString tx.fee ++ "\x7d"

/-- Total output amount of a transaction. -/
def Transaction.getTotalOutputAmount (tx : Transaction) : Int :=
  tx.outputs.foldl (fun total o => total + o.amount) 0

/-- Total amount of the referenced UTXOs that are present in the given set
(absent references contribute nothing, exactly as in the source). -/
def Transaction.getTotalInputAmount (tx : Transaction)
    (utxoSet : List (String × UTXO)) : Int :=
  tx.inputs.foldl
    (fun total i =>
      match lookupEntry utxoSet (utxoKey i.previousTxHash i.outputIndex) with
      | some u => total + u.output.amount
      | none => total)
    0

/-- Structural coinbase check: exactly one input carrying the zero-hash and
max-index sentinels. -/
def Transaction.isCoinbase (tx : Transaction) : Bool :=
  match tx.inputs with
  | [i] => i.previousTxHash == coinbasePrevHash
      && i.outputIndex == coinbaseOutputIndex
  | _ => false

section Core

variable (sha256 : String → String)

/-- Recompute and store the content hash (the source mutates `this.hash`;
the model returns the updated record). -/
def Transaction.calculateHash (tx : Transaction) : Transaction :=
  { tx with hash := sha256 tx.getDataForSigning }

/-- Sign every input with the matching private key, then recompute the
hash; a key-count mismatch is a thrown error. -/
def Transaction.signInputs (tx : Transaction) (privateKeys : List String) :
    Except String Transaction :=
  if privateKeys.length ≠ tx.inputs.length then
    .error "Number of private keys must match number of inputs"
  else
    let dataToSign := tx.getDataForSigning
    let signedInputs := (tx.inputs.zip privateKeys).map
      (fun p => { p.1 with signature := signMessage sha256 dataToSign p.2 })
    .ok (Transaction.calculateHash sha256 { tx with inputs := signedInputs })

/-- Verify every input signature against the signable encoding; fails
closed on the first mismatch. -/
def Transaction.verifySignatures (tx : Transaction) : Bool :=
  tx.inputs.all
    (fun i => verifySignature sha256 tx.getDataForSigning i.signature i.publicKey)

/-- Transaction validation against a UTXO set, in source order: non-empty
inputs and outputs, signature verification, UTXO existence for every input,
input sufficiency, positive output amounts.  There is no coinbase special
case in this function. -/
def Transaction.isValid (tx : Transaction)
    (utxoSet : List (String × UTXO)) : Bool :=
  if tx.inputs.length == 0 || tx.outputs.length == 0 then false
  else if !(Transaction.verifySignatures sha256 tx) then false
  else if !(tx.inputs.all
      (fun i => hasKey utxoSet (utxoKey i.previousTxHash i.outputIndex))) then
    false
  else if tx.getTotalInputAmount utxoSet
      < tx.getTotalOutputAmount + tx.fee then false
  else if tx.outputs.any (fun o => o.amount ≤ 0) then false
  else true

/-- Build a coinbase transaction: the sentinel input carries height-derived
placeholder signature and key; the single output pays the reward. -/
def Transaction.createCoinbase (minerAddress : String) (blockHeight : Nat)
    (reward : Int) (ts : Int) : Transaction :=
  let coinbaseInput : TransactionInput :=
    { previousTxHash := coinbasePrevHash
      outputIndex := coinbaseOutputIndex
      signature := "coinbase_" ++ toString blockHeight
      publicKey := "coinbase_" ++ toString blockHeight }
  let coinbaseOutput : TransactionOutput :=
    { amount := reward, recipientAddress := minerAddress }
  Transaction.calculateHash sha256
    { hash := "", timestamp := ts, inputs := [coinbaseInput],
      outputs := [coinbaseOutput], fee := 0 }

end Core

/-! Block operations. -/

/-- JSON serialization of the header, the preimage of the block hash. -/
def BlockHeader.json (h : BlockHeader) : String :=
  "\x7b\"version\":" ++ toString h.version ++
    ",\"previousBlockHash\":" ++ jstr h.previousBlockHash ++
    ",\"merkleRoot\":" ++ jstr h.merkleRoot ++
    ",\"timestamp\":" ++ toString h.timestamp ++
    ",\"difficulty\":" ++ toString h.difficulty ++
    ",\"nonce\":" ++ toString h.nonce ++ "\x7d"

/-- The Block constructor: fresh header with the given previous hash,
difficulty and creation time, nonce 0, empty merkle root and hash. -/
def Block.build (previousBlockHash : String) (transactions : List Transaction)
    (difficulty : Nat) (height : Nat) (ts : Int) : Block :=
  { hash := ""
    header :=
      { version := 1, previousBlockHash := previousBlockHash,
        merkleRoot := "", timestamp := ts, difficulty := difficulty,
        nonce := 0 }
    transactions := transactions
    height := height }

section Core

variable (sha256 : String → String)

/-- The source computes missing transaction hashes while collecting them
for the merkle root; this models that in-place filling. -/
def fillTxHashes (txs : List Transaction) : List Transaction :=
  txs.map (fun tx => if tx.hash == "" then Transaction.calculateHash sha256 tx else tx)

/-- Recompute and store the merkle root over the transaction hashes (an
empty transaction list hashes the empty input). -/
def Block.calculateMerkleRoot (b : Block) : Block :=
  if b.transactions.length == 0 then
    { b with header := { b.header with merkleRoot := sha256 "" } }
  else
    let txs := fillTxHashes sha256 b.transactions
    let root := Marscoin.calculateMerkleRoot sha256 (txs.map (fun tx => tx.hash))
    { b with transactions := txs,
             header := { b.header with merkleRoot := root } }

/-- Recompute and store the block hash: refresh the merkle root, then hash
the serialized header. -/
def Block.calculateHash (b : Block) : Block :=
  let b1 := Block.calculateMerkleRoot sha256 b
  { b1 with hash := sha256 (BlockHeader.json b1.header) }

/-- The nonce search.  Each round recomputes the block hash; on a miss the
nonce is incremented, the header timestamp is refreshed every 10000
attempts (the model freezes the clock at `now`), and once the attempt
counter exceeds 1000000 the search aborts with the mining-timeout error.
The structural `gas` parameter only makes the recursion kernel-evaluable:
`mine` starts it above the attempt ceiling, so the source's own timeout
check always fires strictly before the exhaustion branch could. -/
def Block.mineLoop (now : Int) : Nat → Block → Nat → Except String Block
  | 0, _, _ => .error "Mining timeout - difficulty too high"
  | gas + 1, b, attempts =>
    let b1 := Block.calculateHash sha256 b
    if isValidProofOfWork b1.hash b1.header.difficulty then .ok b1
    else
      let b2 := { b1 with header := { b1.header with nonce := b1.header.nonce + 1 } }
      let attempts1 := attempts + 1
      let b3 :=
        if attempts1 % 10000 == 0 && attempts1 > 0 then
          { b2 with header := { b2.header with timestamp := now } }
        else b2
      if attempts1 > 1000000 then
        .error "Mining timeout - difficulty too high"
      else
        Block.mineLoop now gas b3 attempts1

/-- Mining: compute the merkle root once, then run the nonce search from
attempt 0. -/
def Block.mine (now : Int) (b : Block) : Except String Block :=
  Block.mineLoop sha256 now 1000002 (Block.calculateMerkleRoot sha256 b) 0

/-- Block validation.  The source first recomputes `this.hash` (mutating
the block) and then compares the result with `this.hash`, so the first
comparison can never fail; the proof-of-work check therefore runs on the
recomputed hash.  The merkle comparison is vacuous for the same reason.
The returned block is the mutated object the source keeps using. -/
def Block.isValidRun (now : Int) (b : Block) (previousBlock : Option Block) :
    Bool × Block :=
  let b1 := Block.calculateHash sha256 b
  let calculatedHash := b1.hash
  if calculatedHash != b1.hash then (false, b1)
  else if !isValidProofOfWork b1.hash b1.header.difficulty then (false, b1)
  else
    let b2 := Block.calculateMerkleRoot sha256 b1
    let calculatedMerkleRoot := b2.header.merkleRoot
    if calculatedMerkleRoot != b2.header.merkleRoot then (false, b2)
    else if (match previousBlock with
        | some p => b2.header.previousBlockHash != p.hash
        | none => false) then (false, b2)
    else if b2.header.timestamp > now + 2 * 60 * 60 * 1000 then (false, b2)
    else
      let b3 := { b2 with transactions := fillTxHashes sha256 b2.transactions }
      match b3.transactions with
      | [] => (false, b3)
      | t0 :: rest =>
          if !t0.isCoinbase then (false, b3)
          else if rest.any (fun t => t.isCoinbase) then (false, b3)
          else (true, b3)

/-- Genesis construction: a base coinbase plus, when a creator allocation
is given (the source guards with JavaScript truthiness, always satisfied
at the one call site), a second minting transaction; then mined like any
other block on top of the all-zero previous hash. -/
def Block.createGenesisBlock (ts : Int) (difficulty : Nat)
    (creator : Option (String × Int)) : Except String Block :=
  let genesisTransaction :=
    Transaction.createCoinbase sha256 "genesis_address_1a2b3c4d5e6f7890" 0 50 ts
  let transactions :=
    match creator with
    | some (addr, alloc) =>
        [genesisTransaction, Transaction.createCoinbase sha256 addr 0 alloc ts]
    | none => [genesisTransaction]
  Block.mine sha256 ts (Block.build coinbasePrevHash transactions difficulty 0 ts)

end Core

section StabilityLemmas

variable (sha256 : String → String)

/-- The signable encoding ignores the cached hash. -/
theorem getDataForSigning_hash_update (tx : Transaction) (x : String) :
    Transaction.getDataForSigning { tx with hash := x }
      = Transaction.getDataForSigning tx := rfl

/-- The per-input signing fragment ignores the signature field. -/
theorem signingJson_signature_update (i : TransactionInput) (x : String) :
    TransactionInput.signingJson { i with signature := x }
      = TransactionInput.signingJson i := rfl

/-- Recomputing the hash of an already-hashed transaction is stable. -/
theorem calculateHash_idem (tx : Transaction) :
    Transaction.calculateHash sha256 (Transaction.calculateHash sha256 tx)
      = Transaction.calculateHash sha256 tx := rfl

/-- Filling is idempotent: a second pass finds every hash already
computed (or recomputes the identical value). -/
theorem fillTxHashes_idem (txs : List Transaction) :
    fillTxHashes sha256 (fillTxHashes sha256 txs) = fillTxHashes sha256 txs := by
  induction txs with
  | nil => rfl
  | cons tx rest ih =>
      simp only [fillTxHashes, List.map_cons, List.map] at ih ⊢
      refine congrArg₂ _ ?_ ih
      by_cases h : tx.hash == ""
      · by_cases h2 : (Transaction.calculateHash sha256 tx).hash == "" <;>
          simp [h, h2, calculateHash_idem]
      · simp [h]

/-- Filling only touches the hash field: inputs survive. -/
theorem fillTxHashes_map_inputs (txs : List Transaction) :
    (fillTxHashes sha256 txs).map (fun tx => tx.inputs)
      = txs.map (fun tx => tx.inputs) := by
  induction txs with
  | nil => rfl
  | cons tx rest ih =>
      simp only [fillTxHashes, List.map_cons, List.map] at ih ⊢
      refine congrArg₂ _ ?_ ih
      by_cases h : tx.hash == "" <;> simp [h, Transaction.calculateHash]

/-- Filling only touches the hash field: outputs survive. -/
theorem fillTxHashes_map_outputs (txs : List Transaction) :
    (fillTxHashes sha256 txs).map (fun tx => tx.outputs)
      = txs.map (fun tx => tx.outputs) := by
  induction txs with
  | nil => rfl
  | cons tx rest ih =>
      simp only [fillTxHashes, List.map_cons, List.map] at ih ⊢
      refine congrArg₂ _ ?_ ih
      by_cases h : tx.hash == "" <;> simp [h, Transaction.calculateHash]

/-- The structural coinbase test only reads the inputs, so filling
preserves it. -/
theorem isCoinbase_fill (tx : Transaction) :
    (if tx.hash == "" then Transaction.calculateHash sha256 tx else tx).isCoinbase
      = tx.isCoinbase := by
  by_cases h : tx.hash == "" <;>
    simp [h, Transaction.calculateHash, Transaction.isCoinbase]

/-- The block-level merkle recomputation leaves the transactions equal to a
single filling pass. -/
theorem blockCalculateMerkleRoot_transactions (b : Block) :
    (Block.calculateMerkleRoot sha256 b).transactions
      = fillTxHashes sha256 b.transactions := by
  by_cases h : b.transactions.length == 0
  · have : b.transactions = [] := by
      simpa using List.length_eq_zero.mp (by simpa using h)
    simp [Block.calculateMerkleRoot, h, this, fillTxHashes]
  · simp [Block.calculateMerkleRoot, h]

/-- The block hash recomputation leaves the transactions equal to a single
filling pass. -/
theorem blockCalculateHash_transactions (b : Block) :
    (Block.calculateHash sha256 b).transactions
      = fillTxHashes sha256 b.transactions := by
  simp [Block.calculateHash, blockCalculateMerkleRoot_transactions]

/-- `calculateMerkleRoot` after `calculateHash` changes nothing: the
transactions are already filled and the stored root is the recomputed one. -/
theorem blockCalculateMerkleRoot_calculateHash (b : Block) :
    Block.calculateMerkleRoot sha256 (Block.calculateHash sha256 b)
      = Block.calculateHash sha256 b := by
  by_cases h : b.transactions.length == 0
  · have hnil : b.transactions = [] := by
      simpa using List.length_eq_zero.mp (by simpa using h)
    simp [Block.calculateHash, Block.calculateMerkleRoot, h, hnil]
  · have hb : (b.transactions.length == 0) = false := by
      simpa using h
    have hf : ((fillTxHashes sha256 b.transactions).length == 0) = false := by
      simpa [fillTxHashes] using hb
    simp only [Block.calculateHash, Block.calculateMerkleRoot, hb, hf,
      fillTxHashes_idem, Bool.false_eq_true, if_false]

/-- Recomputing the block hash twice is the same as once. -/
theorem blockCalculateHash_idem (b : Block) :
    Block.calculateHash sha256 (Block.calculateHash sha256 b)
      = Block.calculateHash sha256 b := by
  show { Block.calculateMerkleRoot sha256 (Block.calculateHash sha256 b) with
      hash := sha256 (BlockHeader.json
        (Block.calculateMerkleRoot sha256 (Block.calculateHash sha256 b)).header) }
    = Block.calculateHash sha256 b
  rw [blockCalculateMerkleRoot_calculateHash]
  rfl

end StabilityLemmas

/-! Blockchain (ledger) state machine. -/

/-- The latest block; `none` only on an empty chain (the source would
dereference `undefined` there, which no reachable state does). -/
def Blockchain.getLatestBlock (s : Blockchain) : Option Block :=
  s.chain.getLast?

/-- Chain height: number of blocks minus one. -/
def Blockchain.getHeight (s : Blockchain) : Nat :=
  s.chain.length - 1

/-- Total circulating supply: sum of all UTXO amounts. -/
def Blockchain.getTotalSupply (s : Blockchain) : Int :=
  (s.utxoSet.map Prod.snd).foldl (fun sum u => sum + u.output.amount) 0

/-- Balance of an address: sum of the UTXO amounts addressed to it. -/
def Blockchain.getBalance (s : Blockchain) (address : String) : Int :=
  (s.utxoSet.map Prod.snd).foldl
    (fun balance u =>
      if u.output.recipientAddress == address then balance + u.output.amount
      else balance)
    0

/-- UTXOs addressed to the given address, in map iteration order. -/
def Blockchain.getUtxosForAddress (s : Blockchain) (address : String) :
    List UTXO :=
  (s.utxoSet.map Prod.snd).filter
    (fun u => u.output.recipientAddress == address)

/-- Insert the outputs of one transaction into the UTXO set, keyed by
(transaction hash, output index) at the given block height. -/
def insertTxOutputs (tx : Transaction) (blockHeight : Nat)
    (m : List (String × UTXO)) : List (String × UTXO) :=
  tx.outputs.enum.foldl
    (fun acc p =>
      setEntry acc (utxoKey tx.hash p.1)
        { txHash := tx.hash, outputIndex := p.1, output := p.2,
          blockHeight := blockHeight })
    m

/-- UTXO update for one admitted block: for each transaction in order,
delete the UTXOs consumed by non-coinbase inputs, then insert all outputs. -/
def updateUtxoSetForBlock (b : Block) (m : List (String × UTXO)) :
    List (String × UTXO) :=
  b.transactions.foldl
    (fun acc tx =>
      let acc1 :=
        if tx.isCoinbase then acc
        else tx.inputs.foldl
          (fun a i => deleteEntry a (utxoKey i.previousTxHash i.outputIndex)) acc
      insertTxOutputs tx b.height acc1)
    m

/-- Drop the mined transactions (by hash) from the mempool. -/
def removeMinedTransactions (b : Block) (mempool : List Transaction) :
    List Transaction :=
  mempool.filter
    (fun tx => !(b.transactions.any (fun mined => mined.hash == tx.hash)))

/-- Difficulty retargeting: only when the chain length is a multiple of the
retarget interval; the elapsed time between the blocks at distance
`interval - 1` apart is compared with `interval * targetBlockTime` as an
exact rational ratio (see the header note on float fidelity).  The
out-of-range lookups return the state unchanged; the source would throw
there and no state with a non-empty chain reaches them. -/
def Blockchain.adjustDifficulty (s : Blockchain) : Blockchain :=
  if s.chain.length % difficultyAdjustmentInterval ≠ 0 then s
  else
    match s.chain.get? (s.chain.length - difficultyAdjustmentInterval),
        s.chain.getLast? with
    | some startBlock, some endBlock =>
        let timeExpected : Int :=
          targetBlockTime * (difficultyAdjustmentInterval : Int)
        let timeActual : Int :=
          endBlock.header.timestamp - startBlock.header.timestamp
        if 4 * timeActual < timeExpected then
          { s with difficulty := s.difficulty + 1 }
        else if timeActual > 4 * timeExpected then
          { s with difficulty := max 1 (s.difficulty - 1) }
        else s
    | _, _ => s

/-- The integer comparison in `adjustDifficulty` is exactly the source's
`timeActual / timeExpected < 0.25` on the ratio of the two elapsed times
(the divisor is the positive constant 50000). -/
theorem adjustDifficulty_fast_iff (timeActual : Int) :
    4 * timeActual < targetBlockTime * (difficultyAdjustmentInterval : Int) ↔
      (timeActual : Rat) /
          ((targetBlockTime * (difficultyAdjustmentInterval : Int) : Int) : Rat)
        < 1 / 4 := by
  have h1 : ((targetBlockTime * (difficultyAdjustmentInterval : Int) : Int) : Rat)
      = (50000 : Rat) := by norm_num [targetBlockTime, difficultyAdjustmentInterval]
  have h2 : targetBlockTime * (difficultyAdjustmentInterval : Int) = (50000 : Int) := by
    norm_num [targetBlockTime, difficultyAdjustmentInterval]
  rw [h1, h2, div_lt_iff₀ (by norm_num : (0:Rat) < 50000)]
  have h3 : (1 / 4 : Rat) * 50000 = ((12500 : Int) : Rat) := by norm_num
  rw [h3]
  constructor
  · intro h
    exact_mod_cast (by omega : timeActual < (12500 : Int))
  · intro h
    have ht : timeActual < (12500 : Int) := by exact_mod_cast h
    omega

/-- The integer comparison in `adjustDifficulty` is exactly the source's
`timeActual / timeExpected > 4`. -/
theorem adjustDifficulty_slow_iff (timeActual : Int) :
    timeActual > 4 * (targetBlockTime * (difficultyAdjustmentInterval : Int)) ↔
      (timeActual : Rat) /
          ((targetBlockTime * (difficultyAdjustmentInterval : Int) : Int) : Rat)
        > 4 := by
  have h1 : ((targetBlockTime * (difficultyAdjustmentInterval : Int) : Int) : Rat)
      = (50000 : Rat) := by norm_num [targetBlockTime, difficultyAdjustmentInterval]
  have h2 : targetBlockTime * (difficultyAdjustmentInterval : Int) = (50000 : Int) := by
    norm_num [targetBlockTime, difficultyAdjustmentInterval]
  rw [h1, h2, gt_iff_lt, gt_iff_lt, lt_div_iff₀ (by norm_num : (0:Rat) < 50000)]
  have h3 : (4 : Rat) * 50000 = ((200000 : Int) : Rat) := by norm_num
  rw [h3]
  constructor
  · intro h
    exact_mod_cast (by omega : (200000 : Int) < timeActual)
  · intro h
    have ht : (200000 : Int) < timeActual := by exact_mod_cast h
    omega

section Core

variable (sha256 : String → String)

/-- Sum of the fees of the pending mempool transactions. -/
def Blockchain.mempoolFees (s : Blockchain) : Int :=
  s.mempool.foldl (fun sum tx => sum + tx.fee) 0

/-- Block admission: validate the block against the current head, validate
every non-coinbase transaction against the live UTXO set; on failure
return false with the ledger untouched, on success append the (mutated)
block, update the UTXO set, drop mined transactions from the mempool and
retarget the difficulty. -/
def Blockchain.addBlock (now : Int) (s : Blockchain) (newBlock : Block) :
    Bool × Blockchain :=
  let vr := Block.isValidRun sha256 now newBlock s.getLatestBlock
  if !vr.1 then (false, s)
  else
    let b := vr.2
    if !((b.transactions.drop 1).all
        (fun tx => Transaction.isValid sha256 tx s.utxoSet)) then
      (false, s)
    else
      let s1 : Blockchain :=
        { s with
          chain := s.chain ++ [b]
          utxoSet := updateUtxoSetForBlock b s.utxoSet
          mempool := removeMinedTransactions b s.mempool }
      (true, s1.adjustDifficulty)

/-- Mempool admission: reject invalid transactions and hash duplicates,
otherwise append. -/
def Blockchain.addTransaction (s : Blockchain) (transaction : Transaction) :
    Bool × Blockchain :=
  if !(Transaction.isValid sha256 transaction s.utxoSet) then (false, s)
  else if s.mempool.any (fun tx => tx.hash == transaction.hash) then (false, s)
  else (true, { s with mempool := s.mempool ++ [transaction] })

/-- Mining orchestration: refuse once the supply cap is reached; compute
the coinbase reward (base reward plus mempool fees) truncated at the cap;
assemble the coinbase plus at most 100 mempool transactions into a draft
block on the current head; mine it and attempt admission.  `tsCb`,
`tsBlock` and `now` model the `Date.now()` reads of the coinbase
constructor, the block constructor and the mining/validation clock. -/
def Blockchain.mineBlock (tsCb tsBlock now : Int) (s : Blockchain)
    (minerAddress : String) : Option Block × Blockchain :=
  let currentSupply := s.getTotalSupply
  if currentSupply ≥ maxSupply then (none, s)
  else
    let totalFees := s.mempoolFees
    let reward0 := miningReward + totalFees
    let coinbaseReward :=
      if currentSupply + reward0 > maxSupply then maxSupply - currentSupply
      else reward0
    let coinbaseTx :=
      Transaction.createCoinbase sha256 minerAddress (s.getHeight + 1)
        coinbaseReward tsCb
    let blockTransactions := coinbaseTx :: s.mempool.take 100
    let newBlock :=
      Block.build
        ((s.getLatestBlock.map (fun b => b.hash)).getD "")
        blockTransactions s.difficulty (s.getHeight + 1) tsBlock
    match Block.mine sha256 now newBlock with
    | .error _ => (none, s)
    | .ok mined =>
        let result := Blockchain.addBlock sha256 now s mined
        if result.1 then (some mined, result.2) else (none, result.2)

/-- Ledger construction: mine the genesis block with the creator
allocation, then seed the UTXO set with every genesis output at height 0.
A genesis mining timeout surfaces as an error (the source constructor
would leave the chain empty). -/
def Blockchain.init (ts : Int) : Except String Blockchain :=
  match Block.createGenesisBlock sha256 ts 1
      (some (creatorAddress, creatorAllocation)) with
  | .error e => .error e
  | .ok genesisBlock =>
      .ok
        { chain := [genesisBlock]
          difficulty := 1
          utxoSet := genesisBlock.transactions.foldl
            (fun m tx => insertTxOutputs tx 0 m) []
          mempool := [] }

end Core

/-! Wallet. -/

structure Wallet where
  privateKey : String
  publicKey : String
  address : String
deriving DecidableEq, Repr

section Core

variable (sha256 : String → String)

/-- Wallet construction from a private key: derive the public key and the
address deterministically. -/
def Wallet.make (privateKey : String) : Wallet :=
  let publicKey := generatePublicKey sha256 privateKey
  { privateKey := privateKey, publicKey := publicKey,
    address := generateAddress sha256 publicKey }

end Core

/-- The owned UTXOs, straight from the ledger query. -/
def Wallet.getUtxos (w : Wallet) (blockchain : Blockchain) : List UTXO :=
  blockchain.getUtxosForAddress w.address

/-- The greedy accumulation over the height-sorted UTXO list: push each
UTXO and stop as soon as the running total covers the target.  Returns the
selected list and the selected amount. -/
def selectUtxos (target : Int) (acc : Int) : List UTXO → List UTXO × Int
  | [] => ([], acc)
  | u :: rest =>
      let acc1 := acc + u.output.amount
      if acc1 ≥ target then ([u], acc1)
      else
        let r := selectUtxos target acc1 rest
        (u :: r.1, r.2)

/-- Ascending sort by block height.  The source uses the engine's stable
sort with comparator `a.blockHeight - b.blockHeight`; a stable sort for a
total preorder has a unique output, so the structural insertion sort below
computes exactly what the engine sort returns. -/
def sortUtxosByHeight (utxos : List UTXO) : List UTXO :=
  utxos.insertionSort (fun a b => a.blockHeight ≤ b.blockHeight)

section Core

variable (sha256 : String → String)

/-- Transaction construction: null when the wallet owns no UTXOs or they
total less than amount + fee; otherwise greedy oldest-first coin selection,
one recipient output, a change output exactly when the selected total
strictly exceeds amount + fee, and every input signed with the wallet
private key.  An `Except.error` would model a thrown signing error; the
key count always matches, so it cannot occur. -/
def Wallet.createTransaction (w : Wallet) (recipientAddress : String)
    (amount fee : Int) (blockchain : Blockchain) (ts : Int) :
    Except String (Option Transaction) :=
  let availableUtxos := w.getUtxos blockchain
  if availableUtxos.length == 0 then .ok none
  else
    let totalAvailable :=
      availableUtxos.foldl (fun sum u => sum + u.output.amount) 0
    if totalAvailable < amount + fee then .ok none
    else
      let sel := selectUtxos (amount + fee) 0 (sortUtxosByHeight availableUtxos)
      let selectedUtxos := sel.1
      let selectedAmount := sel.2
      let inputs : List TransactionInput := selectedUtxos.map
        (fun u =>
          { previousTxHash := u.txHash, outputIndex := u.outputIndex,
            signature := "", publicKey := w.publicKey })
      let change := selectedAmount - amount - fee
      let outputs : List TransactionOutput :=
        [{ amount := amount, recipientAddress := recipientAddress }] ++
          (if change > 0 then
            [{ amount := change, recipientAddress := w.address }]
          else [])
      let transaction : Transaction :=
        { hash := "", timestamp := ts, inputs := inputs, outputs := outputs,
          fee := fee }
      match Transaction.signInputs sha256 transaction
          (List.replicate inputs.length w.privateKey) with
      | .error e => .error e
      | .ok signed => .ok (some signed)

end Core

section MachineLemmas

variable (sha256 : String → String)

/-- Any successful nonce search returns a block in recomputed-hash form,
with the proof-of-work target met and the transactions equal to one filling
pass over the input transactions. -/
theorem mineLoop_ok (now : Int) :
    ∀ (gas : Nat) (b : Block) (attempts : Nat) (b1 : Block),
      Block.mineLoop sha256 now gas b attempts = .ok b1 →
      b1 = Block.calculateHash sha256 b1
      ∧ isValidProofOfWork b1.hash b1.header.difficulty = true
      ∧ b1.transactions = fillTxHashes sha256 b.transactions
  | 0, b, attempts, b1 => by
      intro h
      simp [Block.mineLoop] at h
  | gas + 1, b, attempts, b1 => by
      intro h
      simp only [Block.mineLoop] at h
      split at h
      case isTrue hp =>
        have hb1 : Block.calculateHash sha256 b = b1 := by
          simpa using h
        subst hb1
        exact ⟨(blockCalculateHash_idem sha256 b).symm, hp,
          blockCalculateHash_transactions sha256 b⟩
      case isFalse hp =>
        split at h
        case isTrue => cases h
        case isFalse hgas =>
          obtain ⟨h1, h2, h3⟩ := mineLoop_ok now gas _ _ b1 h
          refine ⟨h1, h2, ?_⟩
          rw [h3]
          have htx : (if (attempts + 1) % 10000 == 0 && attempts + 1 > 0 then
              { { Block.calculateHash sha256 b with
                    header := { (Block.calculateHash sha256 b).header with
                      nonce := (Block.calculateHash sha256 b).header.nonce + 1 } } with
                  header := { { Block.calculateHash sha256 b with
                      header := { (Block.calculateHash sha256 b).header with
                        nonce := (Block.calculateHash sha256 b).header.nonce + 1 } }.header with
                    timestamp := now } }
            else
              { Block.calculateHash sha256 b with
                  header := { (Block.calculateHash sha256 b).header with
                    nonce := (Block.calculateHash sha256 b).header.nonce + 1 } }).transactions
              = (Block.calculateHash sha256 b).transactions := by
            split <;> rfl
          rw [htx, blockCalculateHash_transactions, fillTxHashes_idem]

/-- Same statement for the mining entry point. -/
theorem mine_ok (now : Int) (b : Block) (b1 : Block)
    (h : Block.mine sha256 now b = .ok b1) :
    b1 = Block.calculateHash sha256 b1
    ∧ isValidProofOfWork b1.hash b1.header.difficulty = true
    ∧ b1.transactions = fillTxHashes sha256 b.transactions := by
  obtain ⟨h1, h2, h3⟩ := mineLoop_ok sha256 now _ _ _ b1 h
  refine ⟨h1, h2, ?_⟩
  rw [h3, blockCalculateMerkleRoot_transactions, fillTxHashes_idem]

/-- The nonce search can only return a success or the one timeout error. -/
theorem mineLoop_ok_or_timeout (now : Int) :
    ∀ (gas : Nat) (b : Block) (attempts : Nat),
      (∃ b1, Block.mineLoop sha256 now gas b attempts = .ok b1)
      ∨ Block.mineLoop sha256 now gas b attempts
          = .error "Mining timeout - difficulty too high"
  | 0, b, attempts => Or.inr rfl
  | gas + 1, b, attempts => by
      simp only [Block.mineLoop]
      split
      · exact Or.inl ⟨_, rfl⟩
      · split
        · exact Or.inr rfl
        · exact mineLoop_ok_or_timeout now gas _ _

/-- Block validation always hands back the block in recomputed-hash form
(the object the source mutated in place). -/
theorem isValidRun_snd (now : Int) (b : Block) (p : Option Block) :
    (Block.isValidRun sha256 now b p).2 = Block.calculateHash sha256 b := by
  have hfill : fillTxHashes sha256 (Block.calculateHash sha256 b).transactions
      = (Block.calculateHash sha256 b).transactions := by
    rw [blockCalculateHash_transactions]
    exact fillTxHashes_idem sha256 _
  simp only [Block.isValidRun, blockCalculateMerkleRoot_calculateHash, hfill]
  split
  · rfl
  · split
    · rfl
    · split
      · rfl
      · split
        · rfl
        · split
          · rfl
          · split
            · rfl
            · split
              · rfl
              · split <;> rfl

/-- Sufficient conditions for block validation to succeed: proof-of-work on
the recomputed hash, previous-hash linkage, timestamp bound, a structurally
coinbase head transaction and no other coinbase.  The recomputed-hash and
recomputed-merkle comparisons of the source are self-comparisons after the
in-place mutation and cannot fail. -/
theorem isValidRun_true_of (now : Int) (b : Block) (p : Option Block)
    (t0 : Transaction) (rest : List Transaction)
    (hpow : isValidProofOfWork (Block.calculateHash sha256 b).hash
      (Block.calculateHash sha256 b).header.difficulty = true)
    (hprev : ∀ q, p = some q →
      (Block.calculateHash sha256 b).header.previousBlockHash = q.hash)
    (hts : (Block.calculateHash sha256 b).header.timestamp ≤ now + 2 * 60 * 60 * 1000)
    (htx : (Block.calculateHash sha256 b).transactions = t0 :: rest)
    (hcb : t0.isCoinbase = true)
    (hrest : rest.any (fun t => t.isCoinbase) = false) :
    (Block.isValidRun sha256 now b p).1 = true := by
  have hfill : fillTxHashes sha256 (Block.calculateHash sha256 b).transactions
      = (Block.calculateHash sha256 b).transactions := by
    rw [blockCalculateHash_transactions]
    exact fillTxHashes_idem sha256 _
  have hfill2 : fillTxHashes sha256 (t0 :: rest) = t0 :: rest := htx ▸ hfill
  cases p with
  | none =>
      simp only [Block.isValidRun, blockCalculateMerkleRoot_calculateHash, hfill,
        bne_self_eq_false, Bool.false_eq_true, if_false, hpow, Bool.not_true, htx]
      rw [if_neg (by omega :
        ¬ (Block.calculateHash sha256 b).header.timestamp > now + 2 * 60 * 60 * 1000)]
      simp [hfill2, hcb, hrest]
  | some q =>
      have hq := hprev q rfl
      simp only [Block.isValidRun, blockCalculateMerkleRoot_calculateHash, hfill,
        bne_self_eq_false, Bool.false_eq_true, if_false, hpow, Bool.not_true, htx, hq]
      rw [if_neg (by omega :
        ¬ (Block.calculateHash sha256 b).header.timestamp > now + 2 * 60 * 60 * 1000)]
      simp [hfill2, hcb, hrest]

/-- Block admission either fails with the ledger untouched or succeeds with
the appended chain, the updated UTXO set, the filtered mempool and a
difficulty retarget. -/
theorem addBlock_spec (now : Int) (s : Blockchain) (b : Block) :
    Blockchain.addBlock sha256 now s b = (false, s)
    ∨ Blockchain.addBlock sha256 now s b
        = (true, Blockchain.adjustDifficulty
            { s with
              chain := s.chain ++ [Block.calculateHash sha256 b]
              utxoSet := updateUtxoSetForBlock (Block.calculateHash sha256 b) s.utxoSet
              mempool := removeMinedTransactions (Block.calculateHash sha256 b) s.mempool }) := by
  simp only [Blockchain.addBlock, isValidRun_snd]
  split
  · exact Or.inl rfl
  · split
    · exact Or.inl rfl
    · exact Or.inr rfl

/-- A failed admission leaves the ledger exactly as it was. -/
theorem addBlock_fail (now : Int) (s : Blockchain) (b : Block)
    (h : (Blockchain.addBlock sha256 now s b).1 = false) :
    (Blockchain.addBlock sha256 now s b).2 = s := by
  rcases addBlock_spec sha256 now s b with hc | hc
  · rw [hc]
  · rw [hc] at h
    cases h

/-- Retargeting only rewrites the difficulty field. -/
theorem adjustDifficulty_fields (s : Blockchain) :
    (Blockchain.adjustDifficulty s).chain = s.chain
    ∧ (Blockchain.adjustDifficulty s).utxoSet = s.utxoSet
    ∧ (Blockchain.adjustDifficulty s).mempool = s.mempool := by
  unfold Blockchain.adjustDifficulty
  split
  · exact ⟨rfl, rfl, rfl⟩
  · split
    · dsimp only
      refine ⟨?_, ?_, ?_⟩ <;> (split <;> first | rfl | (split <;> rfl))
    · exact ⟨rfl, rfl, rfl⟩

end MachineLemmas

/-! Supply accounting over the UTXO map. -/

/-- Sum of the amounts held by a UTXO map (the quantity `getTotalSupply`
folds up). -/
def sumAmounts (m : List (String × UTXO)) : Int :=
  (m.map (fun p => p.2.output.amount)).sum

/-- Every amount in the map is nonnegative. -/
def NonnegAmounts (m : List (String × UTXO)) : Prop :=
  ∀ p ∈ m, 0 ≤ p.2.output.amount

/-- Sum of a transaction's output amounts. -/
def sumOutputAmounts (tx : Transaction) : Int :=
  (tx.outputs.map (fun o => o.amount)).sum

theorem foldl_add_amounts (l : List UTXO) :
    ∀ init : Int, l.foldl (fun sum u => sum + u.output.amount) init
      = init + (l.map (fun u => u.output.amount)).sum := by
  induction l with
  | nil => intro init; simp
  | cons u rest ih =>
      intro init
      simp only [List.foldl_cons, List.map_cons, List.sum_cons, ih]
      ring

theorem getTotalSupply_eq (s : Blockchain) :
    s.getTotalSupply = sumAmounts s.utxoSet := by
  unfold Blockchain.getTotalSupply sumAmounts
  rw [foldl_add_amounts]
  simp [List.map_map]
  rfl

theorem sumAmounts_setEntry_le (k : String) (v : UTXO) :
    ∀ m : List (String × UTXO), NonnegAmounts m →
      sumAmounts (setEntry m k v) ≤ sumAmounts m + v.output.amount
  | [], _ => by simp [setEntry, sumAmounts]
  | (k1, v1) :: rest, h => by
      have h1 : 0 ≤ v1.output.amount := h (k1, v1) (List.mem_cons_self _ _)
      have hrest : NonnegAmounts rest := fun q hq => h q (List.mem_cons_of_mem _ hq)
      by_cases hk : k1 = k
      · simp only [setEntry, hk, if_true, sumAmounts, List.map_cons, List.sum_cons]
        have := sumAmounts_setEntry_le k v rest hrest
        omega
      · simp only [setEntry, hk, if_false, sumAmounts, List.map_cons, List.sum_cons]
        have := sumAmounts_setEntry_le k v rest hrest
        simp only [sumAmounts] at this
        omega

theorem nonnegAmounts_setEntry (k : String) (v : UTXO)
    (hv : 0 ≤ v.output.amount) :
    ∀ m : List (String × UTXO), NonnegAmounts m →
      NonnegAmounts (setEntry m k v)
  | [], _ => by
      intro p hp
      simp [setEntry] at hp
      simp [hp, hv]
  | (k1, v1) :: rest, h => by
      have h1 : 0 ≤ v1.output.amount := h (k1, v1) (List.mem_cons_self _ _)
      have hrest : NonnegAmounts rest := fun q hq => h q (List.mem_cons_of_mem _ hq)
      by_cases hk : k1 = k
      · simp only [setEntry, hk, if_true]
        intro p hp
        rcases List.mem_cons.mp hp with hp1 | hp2
        · simp [hp1, hv]
        · exact hrest p hp2
      · simp only [setEntry, hk, if_false]
        intro p hp
        rcases List.mem_cons.mp hp with hp1 | hp2
        · simp [hp1, h1]
        · exact nonnegAmounts_setEntry k v hv rest hrest p hp2

theorem foldl_setEntry_outputs (txHash : String) (height : Nat) :
    ∀ (ps : List (Nat × TransactionOutput)) (m : List (String × UTXO)),
      NonnegAmounts m → (∀ p ∈ ps, 0 ≤ p.2.amount) →
      sumAmounts (ps.foldl
          (fun acc p => setEntry acc (utxoKey txHash p.1)
            { txHash := txHash, outputIndex := p.1, output := p.2,
              blockHeight := height }) m)
        ≤ sumAmounts m + (ps.map (fun p => p.2.amount)).sum
      ∧ NonnegAmounts (ps.foldl
          (fun acc p => setEntry acc (utxoKey txHash p.1)
            { txHash := txHash, outputIndex := p.1, output := p.2,
              blockHeight := height }) m)
  | [], m, hm, _ => ⟨by simp, hm⟩
  | p :: rest, m, hm, hp => by
      have hp0 : 0 ≤ p.2.amount := hp p (List.mem_cons_self _ _)
      have hprest : ∀ q ∈ rest, 0 ≤ q.2.amount :=
        fun q hq => hp q (List.mem_cons_of_mem _ hq)
      have hm1 := nonnegAmounts_setEntry (utxoKey txHash p.1)
        { txHash := txHash, outputIndex := p.1, output := p.2, blockHeight := height }
        hp0 m hm
      have hs1 := sumAmounts_setEntry_le (utxoKey txHash p.1)
        { txHash := txHash, outputIndex := p.1, output := p.2, blockHeight := height }
        m hm
      obtain ⟨ih1, ih2⟩ := foldl_setEntry_outputs txHash height rest _ hm1 hprest
      refine ⟨?_, by simpa using ih2⟩
      simp only [List.foldl_cons, List.map_cons, List.sum_cons]
      calc sumAmounts (rest.foldl _ _)
          ≤ sumAmounts (setEntry m (utxoKey txHash p.1) _)
              + (rest.map (fun p => p.2.amount)).sum := ih1
        _ ≤ sumAmounts m + p.2.amount + (rest.map (fun p => p.2.amount)).sum := by
            have hs2 : sumAmounts (setEntry m (utxoKey txHash p.1)
                { txHash := txHash, outputIndex := p.1, output := p.2,
                  blockHeight := height }) ≤ sumAmounts m + p.2.amount := hs1
            omega
        _ = sumAmounts m + (p.2.amount + (rest.map (fun p => p.2.amount)).sum) := by
            ring

theorem insertTxOutputs_bound (tx : Transaction) (height : Nat)
    (m : List (String × UTXO)) (hm : NonnegAmounts m)
    (ho : ∀ o ∈ tx.outputs, 0 ≤ o.amount) :
    sumAmounts (insertTxOutputs tx height m) ≤ sumAmounts m + sumOutputAmounts tx
    ∧ NonnegAmounts (insertTxOutputs tx height m) := by
  have hmem : ∀ p ∈ tx.outputs.enum, 0 ≤ p.2.amount := by
    intro p hp
    refine ho p.2 ?_
    have := List.enum_map_snd tx.outputs
    exact this ▸ List.mem_map_of_mem Prod.snd hp
  have hsum : (tx.outputs.enum.map (fun p => p.2.amount)).sum = sumOutputAmounts tx := by
    unfold sumOutputAmounts
    rw [show (fun p : Nat × TransactionOutput => p.2.amount)
        = (fun o : TransactionOutput => o.amount) ∘ Prod.snd from rfl,
      ← List.map_map, List.enum_map_snd]
  obtain ⟨h1, h2⟩ := foldl_setEntry_outputs tx.hash height tx.outputs.enum m hm hmem
  exact ⟨by rw [← hsum]; exact h1, h2⟩

theorem foldl_insertTxOutputs_bound (height : Nat) :
    ∀ (txs : List Transaction) (m : List (String × UTXO)),
      NonnegAmounts m → (∀ tx ∈ txs, ∀ o ∈ tx.outputs, 0 ≤ o.amount) →
      sumAmounts (txs.foldl (fun acc tx => insertTxOutputs tx height acc) m)
        ≤ sumAmounts m + (txs.map sumOutputAmounts).sum
      ∧ NonnegAmounts
          (txs.foldl (fun acc tx => insertTxOutputs tx height acc) m)
  | [], m, hm, _ => ⟨by simp, hm⟩
  | tx :: rest, m, hm, ho => by
      have ho0 : ∀ o ∈ tx.outputs, 0 ≤ o.amount :=
        fun o hoo => ho tx (List.mem_cons_self _ _) o hoo
      have horest : ∀ t ∈ rest, ∀ o ∈ t.outputs, 0 ≤ o.amount :=
        fun t ht o hoo => ho t (List.mem_cons_of_mem _ ht) o hoo
      obtain ⟨hs1, hn1⟩ := insertTxOutputs_bound tx height m hm ho0
      obtain ⟨ih1, ih2⟩ :=
        foldl_insertTxOutputs_bound height rest (insertTxOutputs tx height m) hn1 horest
      refine ⟨?_, by simpa using ih2⟩
      simp only [List.foldl_cons, List.map_cons, List.sum_cons]
      omega

/-! The mining-run invariant: supply below the cap, nonnegative amounts,
empty mempool.  It holds at genesis and every `mineBlock` call preserves
it, which is exactly the supply-cap guarantee over pure mining runs. -/

def MiningInv (s : Blockchain) : Prop :=
  sumAmounts s.utxoSet ≤ maxSupply ∧ NonnegAmounts s.utxoSet ∧ s.mempool = []

section MiningRun

variable (sha256 : String → String)

/-- A mining run: fold `mineBlock` over a list of calls, each call giving
the miner address and the three clock readings (coinbase construction,
block construction, mining/validation). -/
def runMining (g : Blockchain) (calls : List (String × Int × Int × Int)) :
    Blockchain :=
  calls.foldl
    (fun s c => (Blockchain.mineBlock sha256 c.2.1 c.2.2.1 c.2.2.2 s c.1).2) g

/-- A coinbase transaction is structurally coinbase. -/
theorem createCoinbase_isCoinbase (addr : String) (hgt : Nat) (r ts : Int) :
    (Transaction.createCoinbase sha256 addr hgt r ts).isCoinbase = true := by
  simp [Transaction.createCoinbase, Transaction.calculateHash,
    Transaction.isCoinbase]

/-- A coinbase transaction pays the single reward output. -/
theorem createCoinbase_outputs (addr : String) (hgt : Nat) (r ts : Int) :
    (Transaction.createCoinbase sha256 addr hgt r ts).outputs
      = [{ amount := r, recipientAddress := addr }] := rfl

/-- Filling the hash does not change the outputs. -/
theorem outputs_fill (tx : Transaction) :
    (if tx.hash == "" then Transaction.calculateHash sha256 tx else tx).outputs
      = tx.outputs := by
  by_cases h : tx.hash == "" <;> simp [h, Transaction.calculateHash]

/-- The genesis ledger satisfies the mining invariant: it mints exactly the
base genesis reward plus the creator allocation, far below the cap. -/
theorem init_inv (ts : Int) (g : Blockchain)
    (h : Blockchain.init sha256 ts = .ok g) : MiningInv g := by
  unfold Blockchain.init at h
  split at h
  case h_1 => cases h
  case h_2 gb heq =>
    obtain ⟨-, -, hgtx⟩ := mine_ok sha256 ts _ gb heq
    injection h with h
    subst h
    have hmap : gb.transactions.map (fun t => t.outputs)
        = [[{ amount := 50, recipientAddress := "genesis_address_1a2b3c4d5e6f7890" }],
           [{ amount := creatorAllocation, recipientAddress := creatorAddress }]] := by
      rw [hgtx, fillTxHashes_map_outputs]
      rfl
    have ho : ∀ tx ∈ gb.transactions, ∀ o ∈ tx.outputs, 0 ≤ o.amount := by
      intro tx htx o hoo
      have hmem : tx.outputs ∈ gb.transactions.map (fun t => t.outputs) :=
        List.mem_map_of_mem _ htx
      rw [hmap] at hmem
      simp only [List.mem_cons, List.not_mem_nil, or_false] at hmem
      rcases hmem with h1 | h1 <;>
        · rw [h1] at hoo
          simp only [List.mem_singleton] at hoo
          simp [hoo, creatorAllocation]
    have hsums : (gb.transactions.map sumOutputAmounts).sum
        = 50 + creatorAllocation := by
      have : gb.transactions.map sumOutputAmounts
          = (gb.transactions.map (fun t => t.outputs)).map
              (fun l => (l.map (fun o => o.amount)).sum) := by
        rw [List.map_map]
        rfl
      rw [this, hmap]
      simp [creatorAllocation]
    obtain ⟨h1, h2⟩ := foldl_insertTxOutputs_bound 0 gb.transactions [] (by
      intro p hp
      cases hp) ho
    refine ⟨?_, h2, rfl⟩
    rw [hsums] at h1
    have h0 : sumAmounts ([] : List (String × UTXO)) = 0 := rfl
    rw [h0] at h1
    simp only [maxSupply, creatorAllocation] at h1 ⊢
    omega

/-- Every `mineBlock` call preserves the mining invariant: either it
refuses, or mining or admission fails leaving the state alone, or it
admits a block whose only transaction is the coinbase, whose reward is
nonnegative and truncated so the new supply stays at or below the cap. -/
theorem mineBlock_inv (tsCb tsBlock now : Int) (s : Blockchain)
    (minerAddress : String) (h : MiningInv s) :
    MiningInv (Blockchain.mineBlock sha256 tsCb tsBlock now s minerAddress).2 := by
  obtain ⟨hsup, hnn, hmp⟩ := h
  simp only [Blockchain.mineBlock]
  split
  · exact ⟨hsup, hnn, hmp⟩
  case isFalse hguard =>
    have hlt : sumAmounts s.utxoSet < maxSupply := by
      rw [getTotalSupply_eq] at hguard
      omega
    split
    case h_1 => exact ⟨hsup, hnn, hmp⟩
    case h_2 mined heq =>
      obtain ⟨-, -, hmtx⟩ := mine_ok sha256 now _ mined heq
      simp only [hmp, List.take_nil, Block.build] at hmtx
      set reward : Int :=
        (if s.getTotalSupply + (miningReward + s.mempoolFees) > maxSupply then
          maxSupply - s.getTotalSupply
        else miningReward + s.mempoolFees) with hreward
      have hfees : s.mempoolFees = 0 := by
        simp [Blockchain.mempoolFees, hmp]
      have hrew0 : 0 ≤ reward ∧ sumAmounts s.utxoSet + reward ≤ maxSupply := by
        rw [hreward, getTotalSupply_eq, hfees]
        simp only [miningReward, maxSupply] at hlt ⊢
        split <;> omega
      have hmain : MiningInv (Blockchain.addBlock sha256 now s mined).2 := by
        rcases addBlock_spec sha256 now s mined with hc | hc
        · have hcs : (Blockchain.addBlock sha256 now s mined).2 = s :=
            congrArg Prod.snd hc
          rw [hcs]
          exact ⟨hsup, hnn, hmp⟩
        · have hcs : (Blockchain.addBlock sha256 now s mined).2
              = Blockchain.adjustDifficulty
                  { s with
                    chain := s.chain ++ [Block.calculateHash sha256 mined]
                    utxoSet := updateUtxoSetForBlock
                      (Block.calculateHash sha256 mined) s.utxoSet
                    mempool := removeMinedTransactions
                      (Block.calculateHash sha256 mined) s.mempool } :=
            congrArg Prod.snd hc
          rw [hcs]
          have hctx : (Block.calculateHash sha256 mined).transactions
              = fillTxHashes sha256
                  [Transaction.createCoinbase sha256 minerAddress
                    (s.getHeight + 1) reward tsCb] := by
            rw [blockCalculateHash_transactions, hmtx, fillTxHashes_idem]
          have hout : (if (Transaction.createCoinbase sha256 minerAddress
                (s.getHeight + 1) reward tsCb).hash == "" then
              Transaction.calculateHash sha256 (Transaction.createCoinbase sha256
                minerAddress (s.getHeight + 1) reward tsCb)
            else Transaction.createCoinbase sha256 minerAddress
                (s.getHeight + 1) reward tsCb).outputs
              = [{ amount := reward, recipientAddress := minerAddress }] := by
            rw [outputs_fill, createCoinbase_outputs]
          have hbound := insertTxOutputs_bound
            (if (Transaction.createCoinbase sha256 minerAddress
                (s.getHeight + 1) reward tsCb).hash == "" then
              Transaction.calculateHash sha256 (Transaction.createCoinbase sha256
                minerAddress (s.getHeight + 1) reward tsCb)
            else Transaction.createCoinbase sha256 minerAddress
                (s.getHeight + 1) reward tsCb)
            (Block.calculateHash sha256 mined).height s.utxoSet hnn (by
              rw [hout]
              intro o hoo
              simp only [List.mem_singleton] at hoo
              rw [hoo]
              exact hrew0.1)
          have hso : sumOutputAmounts (if (Transaction.createCoinbase sha256
              minerAddress (s.getHeight + 1) reward tsCb).hash == "" then
              Transaction.calculateHash sha256 (Transaction.createCoinbase sha256
                minerAddress (s.getHeight + 1) reward tsCb)
            else Transaction.createCoinbase sha256 minerAddress
                (s.getHeight + 1) reward tsCb) = reward := by
            rw [sumOutputAmounts, hout]
            simp
          rw [hso] at hbound
          obtain ⟨hadj1, hadj2, hadj3⟩ := adjustDifficulty_fields
            { s with
              chain := s.chain ++ [Block.calculateHash sha256 mined]
              utxoSet := updateUtxoSetForBlock
                (Block.calculateHash sha256 mined) s.utxoSet
              mempool := removeMinedTransactions
                (Block.calculateHash sha256 mined) s.mempool }
          have hupd : updateUtxoSetForBlock (Block.calculateHash sha256 mined)
              s.utxoSet
              = insertTxOutputs
                  (if (Transaction.createCoinbase sha256 minerAddress
                      (s.getHeight + 1) reward tsCb).hash == "" then
                    Transaction.calculateHash sha256 (Transaction.createCoinbase
                      sha256 minerAddress (s.getHeight + 1) reward tsCb)
                  else Transaction.createCoinbase sha256 minerAddress
                      (s.getHeight + 1) reward tsCb)
                  (Block.calculateHash sha256 mined).height s.utxoSet := by
            rw [updateUtxoSetForBlock, hctx]
            simp only [fillTxHashes, List.map_cons, List.map_nil, List.foldl_cons,
              List.foldl_nil, isCoinbase_fill, createCoinbase_isCoinbase, if_true]
          refine ⟨?_, ?_, ?_⟩
          · rw [hadj2]
            dsimp only
            rw [hupd]
            omega
          · rw [hadj2]
            dsimp only
            rw [hupd]
            exact hbound.2
          · rw [hadj3]
            dsimp only
            rw [hmp]
            rfl
      have hsnd : (if (Blockchain.addBlock sha256 now s mined).1 = true then
            ((some mined : Option Block), (Blockchain.addBlock sha256 now s mined).2)
          else (none, (Blockchain.addBlock sha256 now s mined).2)).2
          = (Blockchain.addBlock sha256 now s mined).2 := by
        split <;> rfl
      rw [hsnd]
      exact hmain

end MiningRun

/-! Coin-selection lemmas for the wallet. -/

theorem zip_replicate_map {α β : Type} (a : β) :
    ∀ l : List α, l.zip (List.replicate l.length a) = l.map (fun x => (x, a))
  | [] => rfl
  | x :: rest => by
      simp [List.replicate_succ, zip_replicate_map a rest]

/-- The greedy selection always returns a prefix of its input. -/
theorem selectUtxos_take (target : Int) :
    ∀ (acc : Int) (l : List UTXO), ∃ k, (selectUtxos target acc l).1 = l.take k
  | _, [] => ⟨0, rfl⟩
  | acc, u :: rest => by
      by_cases h : acc + u.output.amount ≥ target
      · exact ⟨1, by simp [selectUtxos, h]⟩
      · obtain ⟨k, hk⟩ := selectUtxos_take target (acc + u.output.amount) rest
        exact ⟨k + 1, by simp [selectUtxos, h, hk]⟩

/-- The selected amount is the accumulator plus the selected amounts. -/
theorem selectUtxos_sum (target : Int) :
    ∀ (acc : Int) (l : List UTXO),
      (selectUtxos target acc l).2
        = acc + ((selectUtxos target acc l).1.map (fun u => u.output.amount)).sum
  | _, [] => by simp [selectUtxos]
  | acc, u :: rest => by
      by_cases h : acc + u.output.amount ≥ target
      · simp [selectUtxos, h]
      · have ih := selectUtxos_sum target (acc + u.output.amount) rest
        simp only [selectUtxos, h, if_false, List.map_cons, List.sum_cons]
        rw [ih]
        ring

/-- When the whole list covers the target, the greedy selection covers it. -/
theorem selectUtxos_covers (target : Int) :
    ∀ (acc : Int) (l : List UTXO),
      target ≤ acc + (l.map (fun u => u.output.amount)).sum →
      target ≤ (selectUtxos target acc l).2
  | acc, [], h => by simpa [selectUtxos] using h
  | acc, u :: rest, h => by
      by_cases hc : acc + u.output.amount ≥ target
      · simp [selectUtxos, hc]
      · have ih := selectUtxos_covers target (acc + u.output.amount) rest (by
          simp only [List.map_cons, List.sum_cons] at h
          omega)
        simpa [selectUtxos, hc] using ih

/-- The signable encoding ignores the input signatures. -/
theorem getDataForSigning_sig_update (tx : Transaction)
    (f : TransactionInput → String) :
    Transaction.getDataForSigning
      { tx with inputs := tx.inputs.map (fun i => { i with signature := f i }) }
      = Transaction.getDataForSigning tx := by
  have hmap : (tx.inputs.map (fun i => { i with signature := f i })).map
      TransactionInput.signingJson = tx.inputs.map TransactionInput.signingJson := by
    rw [List.map_map]
    rfl
  simp only [Transaction.getDataForSigning, hmap]

/-! Association-list lookup preservation, used to trace a coinbase output
through the UTXO update of an admitted block. -/

theorem lookupEntry_setEntry_self (k : String) (v : UTXO) :
    ∀ m, lookupEntry (setEntry m k v) k = some v
  | [] => by simp [setEntry, lookupEntry]
  | (k1, v1) :: rest => by
      by_cases h : k1 = k <;>
        simp [setEntry, lookupEntry, h, lookupEntry_setEntry_self k v rest]

theorem lookupEntry_setEntry_ne (k k2 : String) (v : UTXO) (h : k ≠ k2) :
    ∀ m, lookupEntry (setEntry m k v) k2 = lookupEntry m k2
  | [] => by simp [setEntry, lookupEntry, h]
  | (k1, v1) :: rest => by
      by_cases h1 : k1 = k <;>
        simp [setEntry, lookupEntry, h, h1, lookupEntry_setEntry_ne k k2 v h rest]

theorem lookupEntry_deleteEntry_ne (k k2 : String) (h : k ≠ k2) :
    ∀ m, lookupEntry (deleteEntry m k) k2 = lookupEntry m k2
  | [] => rfl
  | (k1, v1) :: rest => by
      by_cases h1 : k1 = k
      · subst h1
        simp [deleteEntry, lookupEntry, h]
      · simp [deleteEntry, lookupEntry, h1,
          lookupEntry_deleteEntry_ne k k2 h rest]

theorem lookupEntry_foldl_delete (k2 : String) :
    ∀ (inputs : List TransactionInput) (m : List (String × UTXO)),
      (∀ i ∈ inputs, utxoKey i.previousTxHash i.outputIndex ≠ k2) →
      lookupEntry (inputs.foldl
        (fun a i => deleteEntry a (utxoKey i.previousTxHash i.outputIndex)) m) k2
        = lookupEntry m k2
  | [], _, _ => rfl
  | i :: rest, m, h => by
      have h0 := h i (List.mem_cons_self _ _)
      have hrest : ∀ j ∈ rest, utxoKey j.previousTxHash j.outputIndex ≠ k2 :=
        fun j hj => h j (List.mem_cons_of_mem _ hj)
      simp only [List.foldl_cons]
      rw [lookupEntry_foldl_delete k2 rest _ hrest,
        lookupEntry_deleteEntry_ne _ _ h0]

theorem lookupEntry_foldl_setEntry_ne (txHash : String) (height : Nat)
    (k2 : String) :
    ∀ (ps : List (Nat × TransactionOutput)) (m : List (String × UTXO)),
      (∀ p ∈ ps, utxoKey txHash p.1 ≠ k2) →
      lookupEntry (ps.foldl
        (fun acc p => setEntry acc (utxoKey txHash p.1)
          { txHash := txHash, outputIndex := p.1, output := p.2,
            blockHeight := height }) m) k2
        = lookupEntry m k2
  | [], _, _ => rfl
  | p :: rest, m, h => by
      have h0 := h p (List.mem_cons_self _ _)
      have hrest : ∀ q ∈ rest, utxoKey txHash q.1 ≠ k2 :=
        fun q hq => h q (List.mem_cons_of_mem _ hq)
      simp only [List.foldl_cons]
      rw [lookupEntry_foldl_setEntry_ne txHash height k2 rest _ hrest,
        lookupEntry_setEntry_ne _ _ _ h0]

theorem lookupEntry_insertTxOutputs_ne (tx : Transaction) (height : Nat)
    (m : List (String × UTXO)) (k2 : String)
    (h : ∀ idx, idx < tx.outputs.length → utxoKey tx.hash idx ≠ k2) :
    lookupEntry (insertTxOutputs tx height m) k2 = lookupEntry m k2 := by
  refine lookupEntry_foldl_setEntry_ne tx.hash height k2 tx.outputs.enum m ?_
  intro p hp
  refine h p.1 ?_
  have hfst : p.1 ∈ (tx.outputs.enum.map Prod.fst) := List.mem_map_of_mem _ hp
  rw [List.enum_map_fst] at hfst
  exact List.mem_range.mp hfst

/-- Lookup through the UTXO update of a run of transactions none of whose
spent or created keys is the observed key. -/
theorem lookupEntry_updateRest (sha256 : String → String) (height : Nat)
    (k2 : String) :
    ∀ (txs : List Transaction) (m : List (String × UTXO)),
      (∀ t ∈ txs, ∀ i ∈ t.inputs,
        utxoKey i.previousTxHash i.outputIndex ≠ k2) →
      (∀ t ∈ txs, ∀ idx, idx < t.outputs.length → utxoKey t.hash idx ≠ k2) →
      lookupEntry (txs.foldl (fun acc tx =>
          insertTxOutputs tx height
            (if tx.isCoinbase then acc
             else tx.inputs.foldl (fun a i =>
               deleteEntry a (utxoKey i.previousTxHash i.outputIndex)) acc)) m) k2
        = lookupEntry m k2
  | [], _, _, _ => rfl
  | t :: rest, m, hin, hout => by
      have hin0 : ∀ i ∈ t.inputs, utxoKey i.previousTxHash i.outputIndex ≠ k2 :=
        fun i hi => hin t (List.mem_cons_self _ _) i hi
      have hout0 : ∀ idx, idx < t.outputs.length → utxoKey t.hash idx ≠ k2 :=
        fun idx hidx => hout t (List.mem_cons_self _ _) idx hidx
      have hinr : ∀ u ∈ rest, ∀ i ∈ u.inputs,
          utxoKey i.previousTxHash i.outputIndex ≠ k2 :=
        fun u hu => hin u (List.mem_cons_of_mem _ hu)
      have houtr : ∀ u ∈ rest, ∀ idx, idx < u.outputs.length →
          utxoKey u.hash idx ≠ k2 :=
        fun u hu => hout u (List.mem_cons_of_mem _ hu)
      simp only [List.foldl_cons]
      rw [lookupEntry_updateRest sha256 height k2 rest _ hinr houtr,
        lookupEntry_insertTxOutputs_ne t height _ k2 hout0]
      split
      · rfl
      · exact lookupEntry_foldl_delete k2 t.inputs m hin0

/-- Signing with one key per input (the key list the wallet builds)
cannot throw and produces the record with every signature filled in and
the hash recomputed. -/
theorem signInputs_replicate (sha256 : String → String) (t : Transaction)
    (sk : String) :
    Transaction.signInputs sha256 t (List.replicate t.inputs.length sk)
      = .ok (Transaction.calculateHash sha256
          { t with inputs := t.inputs.map (fun i =>
              { i with signature :=
                  signMessage sha256 t.getDataForSigning sk }) }) := by
  unfold Transaction.signInputs
  rw [if_neg (by simp)]
  dsimp only
  rw [zip_replicate_map, List.map_map]
  rfl

/-! Concrete instances used by the counterexamples and witnesses.
`hashDemo` is a deterministic compressing stand-in for the external
SHA-256: a rolling polynomial digest prefixed with one zero character, so
a difficulty-one proof-of-work target is met at the first nonce and the
concrete ledger scenarios stay small enough for kernel evaluation.  It is
not injective in general, but it is collision-free on every pair of
strings these scenarios compare, which the kernel checks directly. -/

def hashDemo : String → String := fun s =>
  "0" ++ toString (s.data.foldl (fun a c => (a * 31 + c.toNat) % 1000000007) 7)

/-- The genesis ledger produced with the demo hash, all clocks at 0. -/
def s0 : Blockchain :=
  ((Blockchain.init hashDemo 0).toOption).getD
    { chain := [], difficulty := 1, utxoSet := [], mempool := [] }

/-- The creator-allocation coinbase of the genesis block (its hash names
the UTXO the double-spend scenario spends twice). -/
def genesisCreatorCb : Transaction :=
  Transaction.createCoinbase hashDemo creatorAddress 0 1000000 0

/-- A spend of the creator UTXO with an attacker-chosen key pair: the
ledger never ties the input public key to the UTXO owner, and choosing the
signing key as the verifier-reconstructed key makes the signature check
pass. -/
def dsSpend (pk dest : String) : Transaction :=
  let base : Transaction :=
    { hash := "", timestamp := 0,
      inputs := [{ previousTxHash := genesisCreatorCb.hash, outputIndex := 0,
                   signature := "", publicKey := pk }],
      outputs := [{ amount := 1000000, recipientAddress := dest }], fee := 0 }
  match Transaction.signInputs hashDemo base [getPrivateKeyFromPublic hashDemo pk] with
  | .ok tx => tx
  | .error _ => base

def dsTx1 : Transaction := dsSpend "p1" "addrA"

def dsTx2 : Transaction := dsSpend "p2" "addrB"

def dsState1 : Blockchain := (Blockchain.addTransaction hashDemo s0 dsTx1).2

def dsState2 : Blockchain := (Blockchain.addTransaction hashDemo dsState1 dsTx2).2

def dsCoinbase : Transaction := Transaction.createCoinbase hashDemo "miner" 1 50 0

def dsBlock : Block :=
  Block.build ((s0.chain.getLast?.map (fun b => b.hash)).getD "")
    [dsCoinbase, dsTx1, dsTx2] 1 1 0

def dsFinal : Blockchain := (Blockchain.addBlock hashDemo 0 dsState2 dsBlock).2

/-! The claims. -/

/-- C1: the spec requires `verify(m, sign(m, sk), pk_of(sk)) = true`, but
verification recomputes the expected signature from
`sha256("reverse_" ++ publicKey)`, which is not the signing key, so an
honestly produced signature verifies only in the degenerate case where the
two signing strings collide under the hash.  At any collision-free point
(here the demo hash at message "msg" and key "key") verification of the
honest signature returns false. -/
theorem c1_sign_verify_roundtrip_fails :
    (∀ (sha256 : String → String) (m sk : String),
      verifySignature sha256 m (signMessage sha256 m sk)
          (generatePublicKey sha256 sk) = true
        ↔ sha256 (sha256 m ++ "_" ++ sk)
            = sha256 (sha256 m ++ "_"
                ++ getPrivateKeyFromPublic sha256 (generatePublicKey sha256 sk)))
    ∧ signMessage hashDemo "msg" "key"
        ≠ hashDemo (hashDemo "msg" ++ "_"
            ++ getPrivateKeyFromPublic hashDemo (generatePublicKey hashDemo "key"))
    ∧ verifySignature hashDemo "msg" (signMessage hashDemo "msg" "key")
        (generatePublicKey hashDemo "key") = false := by
  refine ⟨?_, by decide, by decide⟩
  intro sha256 m sk
  simp [verifySignature, signMessage, beq_iff_eq]

/-- C2: the double-spend scenario of the spec fails on the code.  Starting
from the genesis ledger, two distinct transactions spending the very same
(previous-hash, output-index) UTXO are both accepted into the mempool
(admission checks only validity against the untouched UTXO set and hash
duplication), and a block containing both is admitted by `addBlock`
(every transaction is validated against the same pre-block UTXO set), so
both spends enter the chain and the supply inflates. -/
theorem c2_double_spend_admitted :
    Blockchain.init hashDemo 0 = Except.ok s0
    ∧ dsTx1.inputs.map (fun i => (i.previousTxHash, i.outputIndex))
        = [(genesisCreatorCb.hash, 0)]
    ∧ dsTx2.inputs.map (fun i => (i.previousTxHash, i.outputIndex))
        = [(genesisCreatorCb.hash, 0)]
    ∧ lookupEntry s0.utxoSet (utxoKey genesisCreatorCb.hash 0) ≠ none
    ∧ dsTx1.hash ≠ dsTx2.hash
    ∧ (Blockchain.addTransaction hashDemo s0 dsTx1).1 = true
    ∧ (Blockchain.addTransaction hashDemo dsState1 dsTx2).1 = true
    ∧ (Blockchain.addBlock hashDemo 0 dsState2 dsBlock).1 = true
    ∧ (∃ blk, dsFinal.chain.getLast? = some blk
        ∧ dsTx1 ∈ blk.transactions ∧ dsTx2 ∈ blk.transactions)
    ∧ s0.getTotalSupply = 1000050
    ∧ dsFinal.getTotalSupply = 2000100 := by
  refine ⟨rfl, by decide, by decide, by decide, by decide, by decide, by decide,
    by decide, ⟨_, rfl, by decide, by decide⟩, by decide, by decide⟩

/-- C3 counterexample: a freshly built coinbase transaction with one
strictly positive output is rejected by `Transaction.isValid` (the claim
says it must be accepted): there is no coinbase bypass in `isValid`, and
the sentinel input fails the signature and UTXO-existence checks. -/
theorem c3_counterexample :
    (Transaction.createCoinbase hashDemo "someMiner" 1 50 0).isCoinbase = true
    ∧ (Transaction.createCoinbase hashDemo "someMiner" 1 50 0).outputs ≠ []
    ∧ (∀ o ∈ (Transaction.createCoinbase hashDemo "someMiner" 1 50 0).outputs,
        0 < o.amount)
    ∧ Transaction.isValid hashDemo
        (Transaction.createCoinbase hashDemo "someMiner" 1 50 0) [] = false := by
  decide

/-- C3 amended: `Transaction.isValid` contains no coinbase special case;
on a coinbase transaction whose sentinel reference is absent from the
UTXO set it returns false regardless of the outputs (the system-level
bypass lives in `addBlock`, which never validates the first transaction,
as C10 shows). -/
theorem c3_isValid_rejects_coinbase (sha256 : String → String)
    (utxoSet : List (String × UTXO)) (addr : String) (height : Nat)
    (reward ts : Int)
    (h : lookupEntry utxoSet (utxoKey coinbasePrevHash coinbaseOutputIndex)
      = none) :
    Transaction.isValid sha256
      (Transaction.createCoinbase sha256 addr height reward ts) utxoSet
      = false := by
  have hins : (Transaction.createCoinbase sha256 addr height reward ts).inputs
      = [{ previousTxHash := coinbasePrevHash,
           outputIndex := coinbaseOutputIndex,
           signature := "coinbase_" ++ toString height,
           publicKey := "coinbase_" ++ toString height }] := rfl
  have houts : (Transaction.createCoinbase sha256 addr height reward ts).outputs
      = [{ amount := reward, recipientAddress := addr }] := rfl
  by_cases hv : Transaction.verifySignatures sha256
      (Transaction.createCoinbase sha256 addr height reward ts)
  · simp [Transaction.isValid, hins, houts, hv, hasKey, h]
  · simp [Transaction.isValid, hins, houts, hv]

/-- C3 amended witness at a concrete point. -/
theorem c3_amended_witness :
    lookupEntry [] (utxoKey coinbasePrevHash coinbaseOutputIndex) = none
    ∧ Transaction.isValid hashDemo
        (Transaction.createCoinbase hashDemo "w" 2 50 0) [] = false :=
  ⟨rfl, c3_isValid_rejects_coinbase hashDemo [] "w" 2 50 0 rfl⟩

/-- C4: failed block admission is all-or-nothing: whenever `addBlock`
returns false, the resulting ledger — chain, UTXO set, mempool, and the
whole state record — is the input ledger. -/
theorem c4_addBlock_failure_is_atomic (sha256 : String → String) (now : Int)
    (s : Blockchain) (b : Block)
    (h : (Blockchain.addBlock sha256 now s b).1 = false) :
    (Blockchain.addBlock sha256 now s b).2 = s
    ∧ (Blockchain.addBlock sha256 now s b).2.chain = s.chain
    ∧ (Blockchain.addBlock sha256 now s b).2.utxoSet = s.utxoSet
    ∧ (Blockchain.addBlock sha256 now s b).2.mempool = s.mempool := by
  have he := addBlock_fail sha256 now s b h
  exact ⟨he, by rw [he], by rw [he], by rw [he]⟩

def c4State : Blockchain :=
  { chain := [Block.build "prevless" [] 1 0 0], difficulty := 1,
    utxoSet := [], mempool := [] }

def c4BadBlock : Block := Block.build "wrong-previous-hash" [] 0 0 0

/-- C4 witness: a block whose previous-hash does not match the head is
rejected and the state is returned untouched. -/
theorem c4_witness :
    (Blockchain.addBlock hashDemo 0 c4State c4BadBlock).1 = false
    ∧ (Blockchain.addBlock hashDemo 0 c4State c4BadBlock).2 = c4State :=
  ⟨by decide,
    (c4_addBlock_failure_is_atomic hashDemo 0 c4State c4BadBlock (by decide)).1⟩

/-- The mining invariant survives any run of `mineBlock` calls. -/
theorem runMining_inv (sha256 : String → String) :
    ∀ (calls : List (String × Int × Int × Int)) (s : Blockchain),
      MiningInv s → MiningInv (runMining sha256 s calls)
  | [], _, h => h
  | c :: rest, s, h =>
      runMining_inv sha256 rest _
        (mineBlock_inv sha256 c.2.1 c.2.2.1 c.2.2.2 s c.1 h)

/-- C5: the supply cap.  (1) After any sequence of `mineBlock` calls
starting from a genesis ledger, the total circulating supply never exceeds
the configured maximum.  (2) Once the supply has reached the maximum,
`mineBlock` returns null without touching the state.  (3) Any block
`mineBlock` does return carries as its first transaction a coinbase whose
total output is the base reward plus the mempool fees, truncated so the
prior supply plus the reward never exceeds the maximum. -/
theorem c5_supply_cap :
    (∀ (sha256 : String → String) (ts : Int) (g : Blockchain),
        Blockchain.init sha256 ts = Except.ok g →
        ∀ calls : List (String × Int × Int × Int),
          (runMining sha256 g calls).getTotalSupply ≤ maxSupply)
    ∧ (∀ (sha256 : String → String) (tsCb tsBlock now : Int) (s : Blockchain)
        (m : String), s.getTotalSupply ≥ maxSupply →
        Blockchain.mineBlock sha256 tsCb tsBlock now s m = (none, s))
    ∧ (∀ (sha256 : String → String) (tsCb tsBlock now : Int) (s : Blockchain)
        (m : String) (blk : Block) (s2 : Blockchain),
        Blockchain.mineBlock sha256 tsCb tsBlock now s m = (some blk, s2) →
        s.getTotalSupply < maxSupply
        ∧ (blk.transactions.map sumOutputAmounts).head?
            = some (if s.getTotalSupply + (miningReward + s.mempoolFees) > maxSupply
                then maxSupply - s.getTotalSupply
                else miningReward + s.mempoolFees)
        ∧ s.getTotalSupply
            + (if s.getTotalSupply + (miningReward + s.mempoolFees) > maxSupply
                then maxSupply - s.getTotalSupply
                else miningReward + s.mempoolFees) ≤ maxSupply) := by
  refine ⟨?_, ?_, ?_⟩
  · intro sha256 ts g hg calls
    rw [getTotalSupply_eq]
    exact (runMining_inv sha256 calls g (init_inv sha256 ts g hg)).1
  · intro sha256 tsCb tsBlock now s m h
    simp only [Blockchain.mineBlock]
    rw [if_pos h]
  · intro sha256 tsCb tsBlock now s m blk s2 h
    simp only [Blockchain.mineBlock] at h
    split at h
    case isTrue => cases h
    case isFalse hguard =>
      refine ⟨by omega, ?_, by split <;> omega⟩
      split at h
      case h_1 => cases h
      case h_2 mined heq =>
        obtain ⟨-, -, hmtx⟩ := mine_ok sha256 now _ mined heq
        simp only [Block.build] at hmtx
        split at h
        · have hblk : mined = blk := by
            have := congrArg Prod.fst h
            simpa using this
          subst hblk
          rw [hmtx]
          simp only [fillTxHashes, List.map_cons, List.map_map, List.head?_cons,
            List.map]
          refine congrArg some ?_
          simp only [sumOutputAmounts, outputs_fill, createCoinbase_outputs,
            List.map_cons, List.map_nil, List.sum_cons, List.sum_nil, add_zero]
        · cases h

def c5FullState : Blockchain :=
  { chain := [], difficulty := 1, mempool := [],
    utxoSet := [(utxoKey "t" 0,
      { txHash := "t", outputIndex := 0,
        output := { amount := 21000000, recipientAddress := "someone" },
        blockHeight := 0 })] }

def c5Blk : Block :=
  ((Blockchain.mineBlock hashDemo 0 0 0 s0 "minerA").1).getD
    (Block.build "" [] 0 0 0)

/-- C5 witness: a one-call mining run from genesis stays below the cap, a
saturated ledger refuses to mine, and the block actually mined from
genesis carries the untruncated base reward of 50. -/
theorem c5_witness :
    (runMining hashDemo s0 [("minerA", 0, 0, 0)]).getTotalSupply ≤ maxSupply
    ∧ Blockchain.mineBlock hashDemo 0 0 0 c5FullState "m" = (none, c5FullState)
    ∧ Blockchain.mineBlock hashDemo 0 0 0 s0 "minerA"
        = (some c5Blk, (Blockchain.mineBlock hashDemo 0 0 0 s0 "minerA").2)
    ∧ (c5Blk.transactions.map sumOutputAmounts).head? = some 50 := by
  refine ⟨c5_supply_cap.1 hashDemo 0 s0 rfl [("minerA", 0, 0, 0)],
    c5_supply_cap.2.1 hashDemo 0 0 0 c5FullState "m" (by decide), rfl, ?_⟩
  have h := (c5_supply_cap.2.2 hashDemo 0 0 0 s0 "minerA" c5Blk
    (Blockchain.mineBlock hashDemo 0 0 0 s0 "minerA").2 rfl).2.1
  rw [h]
  decide

/-- C6: difficulty retargeting.  It runs only when the chain length is a
multiple of the retarget interval; it compares the elapsed time between
the two blocks the code indexes (the block `interval` positions from the
end and the head) with `interval * targetBlockTime` as the ratio
`actual / expected`; a ratio below 0.25 increments the difficulty by
exactly one, a ratio above 4 decrements it by exactly one but never below
one, and otherwise it is unchanged.  The rational comparisons are the
exact reading of the source's float comparisons (see
`adjustDifficulty_fast_iff`). -/
theorem c6_difficulty_retarget (s : Blockchain) :
    (s.chain.length % difficultyAdjustmentInterval ≠ 0 →
      Blockchain.adjustDifficulty s = s)
    ∧ (∀ startBlock endBlock : Block,
        s.chain.length % difficultyAdjustmentInterval = 0 →
        s.chain.get? (s.chain.length - difficultyAdjustmentInterval)
          = some startBlock →
        s.chain.getLast? = some endBlock →
        (((endBlock.header.timestamp - startBlock.header.timestamp : Int) : Rat)
              / ((targetBlockTime * (difficultyAdjustmentInterval : Int) : Int) : Rat)
            < 1 / 4 →
          (Blockchain.adjustDifficulty s).difficulty = s.difficulty + 1)
        ∧ (((endBlock.header.timestamp - startBlock.header.timestamp : Int) : Rat)
              / ((targetBlockTime * (difficultyAdjustmentInterval : Int) : Int) : Rat)
            > 4 →
          (Blockchain.adjustDifficulty s).difficulty = max 1 (s.difficulty - 1)
          ∧ 1 ≤ (Blockchain.adjustDifficulty s).difficulty)
        ∧ (¬ ((endBlock.header.timestamp - startBlock.header.timestamp : Int) : Rat)
              / ((targetBlockTime * (difficultyAdjustmentInterval : Int) : Int) : Rat)
            < 1 / 4 →
          ¬ ((endBlock.header.timestamp - startBlock.header.timestamp : Int) : Rat)
              / ((targetBlockTime * (difficultyAdjustmentInterval : Int) : Int) : Rat)
            > 4 →
          Blockchain.adjustDifficulty s = s)) := by
  constructor
  · intro h
    unfold Blockchain.adjustDifficulty
    rw [if_pos h]
  · intro startBlock endBlock h0 hsb heb
    have hfast := adjustDifficulty_fast_iff
      (endBlock.header.timestamp - startBlock.header.timestamp)
    have hslow := adjustDifficulty_slow_iff
      (endBlock.header.timestamp - startBlock.header.timestamp)
    refine ⟨?_, ?_, ?_⟩
    · intro hr
      have hi := hfast.mpr hr
      unfold Blockchain.adjustDifficulty
      rw [if_neg (by simpa using h0)]
      simp only [hsb, heb]
      rw [if_pos hi]
    · intro hr
      have hi := hslow.mpr hr
      have hnofast : ¬ 4 * (endBlock.header.timestamp - startBlock.header.timestamp)
          < targetBlockTime * (difficultyAdjustmentInterval : Int) := by
        simp only [targetBlockTime, difficultyAdjustmentInterval] at hi ⊢
        omega
      unfold Blockchain.adjustDifficulty
      rw [if_neg (by simpa using h0)]
      simp only [hsb, heb]
      rw [if_neg hnofast, if_pos hi]
      exact ⟨rfl, Nat.le_max_left 1 _⟩
    · intro hr1 hr2
      have hi1 : ¬ 4 * (endBlock.header.timestamp - startBlock.header.timestamp)
          < targetBlockTime * (difficultyAdjustmentInterval : Int) :=
        fun hx => hr1 (hfast.mp hx)
      have hi2 : ¬ endBlock.header.timestamp - startBlock.header.timestamp
          > 4 * (targetBlockTime * (difficultyAdjustmentInterval : Int)) :=
        fun hx => hr2 (hslow.mp hx)
      unfold Blockchain.adjustDifficulty
      rw [if_neg (by simpa using h0)]
      simp only [hsb, heb]
      rw [if_neg hi1, if_neg hi2]

def c6Chain : Blockchain :=
  { chain := (List.range 10).map (fun i => Block.build "" [] 1 i (500 * i)),
    difficulty := 3, utxoSet := [], mempool := [] }

/-- C6 witness: ten consecutive blocks spaced 500ms apart make the
retarget at the boundary raise the difficulty by exactly one (from 3 to
4), and at a non-multiple length the retarget is the identity. -/
theorem c6_witness :
    (Blockchain.adjustDifficulty c6Chain).difficulty = c6Chain.difficulty + 1
    ∧ Blockchain.adjustDifficulty { c6Chain with chain := c6Chain.chain.take 3 }
        = { c6Chain with chain := c6Chain.chain.take 3 } := by
  constructor
  · exact ((c6_difficulty_retarget c6Chain).2 (Block.build "" [] 1 0 0)
      (Block.build "" [] 1 9 4500) (by decide) (by decide) (by decide)).1
      ((adjustDifficulty_fast_iff _).mp (by decide))
  · exact (c6_difficulty_retarget _).1 (by decide)

/-- C7: the mining loop always terminates (the model is a total function,
justified by the source's strictly increasing attempt counter): for every
hash model, clock and block it either returns normally with a block whose
stored hash is its own recomputed hash and satisfies the proof-of-work
target, or it fails with the explicit mining-timeout error once the
attempt ceiling is exceeded — never silently. -/
theorem c7_mine_terminates_or_times_out (sha256 : String → String)
    (now : Int) (b : Block) :
    (∃ b1, Block.mine sha256 now b = .ok b1
        ∧ isValidProofOfWork b1.hash b1.header.difficulty = true
        ∧ b1 = Block.calculateHash sha256 b1)
    ∨ Block.mine sha256 now b = .error "Mining timeout - difficulty too high" := by
  rcases mineLoop_ok_or_timeout sha256 now 1000002
      (Block.calculateMerkleRoot sha256 b) 0 with ⟨b1, h⟩ | h
  · obtain ⟨h1, h2, -⟩ := mineLoop_ok sha256 now _ _ _ b1 h
    exact Or.inl ⟨b1, h, h2, h1⟩
  · exact Or.inr h

/-- Record-level projections of the transaction hash recomputation. -/
theorem calculateHash_data (sha256 : String → String) (t : Transaction) :
    (Transaction.calculateHash sha256 t).getDataForSigning
      = t.getDataForSigning := rfl

theorem calculateHash_inputs (sha256 : String → String) (t : Transaction) :
    (Transaction.calculateHash sha256 t).inputs = t.inputs := rfl

theorem calculateHash_outputs (sha256 : String → String) (t : Transaction) :
    (Transaction.calculateHash sha256 t).outputs = t.outputs := rfl

theorem calculateHash_fee (sha256 : String → String) (t : Transaction) :
    (Transaction.calculateHash sha256 t).fee = t.fee := rfl

theorem calculateHash_timestamp (sha256 : String → String) (t : Transaction) :
    (Transaction.calculateHash sha256 t).timestamp = t.timestamp := rfl

theorem calculateHash_hash_eq (sha256 : String → String) (t : Transaction) :
    (Transaction.calculateHash sha256 t).hash
      = sha256 t.getDataForSigning := rfl

/-- The transaction record the wallet assembles before signing: greedy
selection over the height-sorted owned UTXOs, the recipient output and the
conditional change output. -/
def walletDraft (w : Wallet) (recipient : String) (amount fee : Int)
    (s : Blockchain) (ts : Int) : Transaction :=
  { hash := "", timestamp := ts,
    inputs := (selectUtxos (amount + fee) 0 (sortUtxosByHeight (w.getUtxos s))).1.map
      (fun u => { previousTxHash := u.txHash, outputIndex := u.outputIndex,
                  signature := "", publicKey := w.publicKey }),
    outputs := { amount := amount, recipientAddress := recipient } ::
      (if (selectUtxos (amount + fee) 0 (sortUtxosByHeight (w.getUtxos s))).2
          - amount - fee > 0 then
        [{ amount := (selectUtxos (amount + fee) 0
              (sortUtxosByHeight (w.getUtxos s))).2 - amount - fee,
           recipientAddress := w.address }]
      else []),
    fee := fee }

/-- Full characterization of `createTransaction` as a case split on the
two null guards, the success value being the signed and re-hashed draft. -/
theorem createTransaction_eq (sha256 : String → String) (w : Wallet)
    (recipient : String) (amount fee : Int) (s : Blockchain) (ts : Int) :
    Wallet.createTransaction sha256 w recipient amount fee s ts
      = if (w.getUtxos s).length == 0 then Except.ok none
        else if (w.getUtxos s).foldl (fun sum u => sum + u.output.amount) 0
            < amount + fee then Except.ok none
        else Except.ok (some (Transaction.calculateHash sha256
          { walletDraft w recipient amount fee s ts with
            inputs := (walletDraft w recipient amount fee s ts).inputs.map
              (fun i => { i with signature := signMessage sha256
                                     (walletDraft w recipient amount fee s ts).getDataForSigning
                                     w.privateKey }) })) := by
  by_cases h0 : (w.getUtxos s).length == 0
  · simp [Wallet.createTransaction, h0]
  · by_cases h1 : (w.getUtxos s).foldl (fun sum u => sum + u.output.amount) 0
        < amount + fee
    · simp [Wallet.createTransaction, h0, h1]
    · have hb0 : ((w.getUtxos s).length == 0) = false := by simpa using h0
      simp only [Wallet.createTransaction, hb0, Bool.false_eq_true, if_false,
        if_neg h1]
      show (match Transaction.signInputs sha256
          (walletDraft w recipient amount fee s ts)
          (List.replicate (walletDraft w recipient amount fee s ts).inputs.length
            w.privateKey) with
        | .error e => Except.error e
        | .ok signed => Except.ok (some signed)) = _
      rw [signInputs_replicate]

/-- C8 amended: `createTransaction` returns null exactly when the wallet
owns no UTXOs or they total less than amount + fee (the claim omitted the
no-UTXO case); it never throws; and any returned transaction spends a
prefix of the height-ascending sort of the owned UTXOs, greedily
accumulated to cover amount + fee, pays exactly `amount` to the recipient
plus, exactly when the selection strictly exceeds amount + fee, the exact
remainder back to the wallet, with every input signed with the wallet key
over the signable encoding and the content hash recomputed. -/
theorem c8_createTransaction_spec (sha256 : String → String) (w : Wallet)
    (recipient : String) (amount fee : Int) (s : Blockchain) (ts : Int) :
    (Wallet.createTransaction sha256 w recipient amount fee s ts = Except.ok none
      ↔ (w.getUtxos s = []
          ∨ ((w.getUtxos s).map (fun u => u.output.amount)).sum < amount + fee))
    ∧ (∀ e, Wallet.createTransaction sha256 w recipient amount fee s ts
        ≠ Except.error e)
    ∧ (∀ tx, Wallet.createTransaction sha256 w recipient amount fee s ts
          = Except.ok (some tx) →
        (∃ k, (selectUtxos (amount + fee) 0 (sortUtxosByHeight (w.getUtxos s))).1
            = (sortUtxosByHeight (w.getUtxos s)).take k)
        ∧ (selectUtxos (amount + fee) 0
            (sortUtxosByHeight (w.getUtxos s))).1.Pairwise
              (fun u1 u2 => u1.blockHeight ≤ u2.blockHeight)
        ∧ amount + fee
            ≤ (selectUtxos (amount + fee) 0 (sortUtxosByHeight (w.getUtxos s))).2
        ∧ (selectUtxos (amount + fee) 0 (sortUtxosByHeight (w.getUtxos s))).2
            = ((selectUtxos (amount + fee) 0
                (sortUtxosByHeight (w.getUtxos s))).1.map
              (fun u => u.output.amount)).sum
        ∧ tx.inputs = (selectUtxos (amount + fee) 0
            (sortUtxosByHeight (w.getUtxos s))).1.map
              (fun u =>
                { previousTxHash := u.txHash, outputIndex := u.outputIndex,
                  signature := signMessage sha256 tx.getDataForSigning w.privateKey,
                  publicKey := w.publicKey })
        ∧ tx.outputs = { amount := amount, recipientAddress := recipient } ::
            (if (selectUtxos (amount + fee) 0
                (sortUtxosByHeight (w.getUtxos s))).2 - amount - fee > 0 then
              [{ amount := (selectUtxos (amount + fee) 0
                    (sortUtxosByHeight (w.getUtxos s))).2 - amount - fee,
                 recipientAddress := w.address }]
            else [])
        ∧ tx.fee = fee ∧ tx.timestamp = ts
        ∧ tx.hash = sha256 tx.getDataForSigning) := by
  have hkey := createTransaction_eq sha256 w recipient amount fee s ts
  refine ⟨?_, ?_, ?_⟩
  · rw [hkey]
    by_cases h0 : (w.getUtxos s).length == 0
    · simp only [h0, if_true]
      constructor
      · intro _
        exact Or.inl (List.length_eq_zero.mp (by simpa using h0))
      · intro _
        trivial
    · by_cases h1 : (w.getUtxos s).foldl (fun sum u => sum + u.output.amount) 0
          < amount + fee
      · simp only [h0, Bool.false_eq_true, if_false, h1, if_true]
        · constructor
          · intro _
            right
            rw [foldl_add_amounts] at h1
            omega
          · intro _
            trivial
      · simp only [h0, Bool.false_eq_true, if_false, h1]
        constructor
        · intro hcontra
          cases hcontra
        · intro hcase
          exfalso
          rcases hcase with hc | hc
          · exact h0 (by simp [hc])
          · refine h1 ?_
            rw [foldl_add_amounts]
            omega
  · intro e
    rw [hkey]
    split
    · intro hcontra
      cases hcontra
    · split
      · intro hcontra
        cases hcontra
      · intro hcontra
        cases hcontra
  · intro tx htx
    rw [hkey] at htx
    by_cases h0 : (w.getUtxos s).length == 0
    · rw [if_pos h0] at htx
      cases htx
    · rw [if_neg (by simpa using h0)] at htx
      by_cases h1 : (w.getUtxos s).foldl (fun sum u => sum + u.output.amount) 0
          < amount + fee
      · rw [if_pos h1] at htx
        cases htx
      · rw [if_neg h1] at htx
        have htxv : tx = Transaction.calculateHash sha256
            { walletDraft w recipient amount fee s ts with
              inputs := (walletDraft w recipient amount fee s ts).inputs.map
                (fun i => { i with signature := signMessage sha256
                                       (walletDraft w recipient amount fee s ts).getDataForSigning
                                       w.privateKey }) } := by
          have := congrArg (fun r : Except String (Option Transaction) =>
            match r with
            | .ok (some t) => t
            | _ => tx) htx
          simpa using this.symm
        have hdata : tx.getDataForSigning
            = (walletDraft w recipient amount fee s ts).getDataForSigning := by
          rw [htxv, calculateHash_data]
          exact getDataForSigning_sig_update (walletDraft w recipient amount fee s ts)
            (fun _ => signMessage sha256
              (walletDraft w recipient amount fee s ts).getDataForSigning
              w.privateKey)
        refine ⟨selectUtxos_take _ _ _, ?_, ?_, ?_, ?_, ?_, ?_, ?_, ?_⟩
        · haveI : IsTotal UTXO (fun u1 u2 : UTXO =>
              u1.blockHeight ≤ u2.blockHeight) :=
            ⟨fun a b => Nat.le_total _ _⟩
          haveI : IsTrans UTXO (fun u1 u2 : UTXO =>
              u1.blockHeight ≤ u2.blockHeight) :=
            ⟨fun _ _ _ hab hbc => Nat.le_trans hab hbc⟩
          have hsorted : (sortUtxosByHeight (w.getUtxos s)).Pairwise
              (fun u1 u2 : UTXO => u1.blockHeight ≤ u2.blockHeight) :=
            List.sorted_insertionSort _ _
          obtain ⟨k, hk⟩ := selectUtxos_take (amount + fee) 0
            (sortUtxosByHeight (w.getUtxos s))
          rw [hk]
          exact hsorted.sublist (List.take_sublist _ _)
        · have hperm : List.Perm ((sortUtxosByHeight (w.getUtxos s)).map
              (fun u => u.output.amount)) ((w.getUtxos s).map
              (fun u => u.output.amount)) :=
            (List.perm_insertionSort _ _).map _
          refine selectUtxos_covers _ _ _ ?_
          rw [hperm.sum_eq]
          rw [foldl_add_amounts] at h1
          omega
        · have hsum := selectUtxos_sum (amount + fee) 0
            (sortUtxosByHeight (w.getUtxos s))
          omega
        · rw [hdata, htxv, calculateHash_inputs]
          show ((walletDraft w recipient amount fee s ts).inputs.map
            (fun i => { i with signature := signMessage sha256
                                   (walletDraft w recipient amount fee s ts).getDataForSigning
                                   w.privateKey })) = _
          show (((selectUtxos (amount + fee) 0
              (sortUtxosByHeight (w.getUtxos s))).1.map
            (fun u => ({ previousTxHash := u.txHash, outputIndex := u.outputIndex,
                         signature := "", publicKey := w.publicKey }
              : TransactionInput))).map
            (fun i => { i with signature := signMessage sha256
                                   (walletDraft w recipient amount fee s ts).getDataForSigning
                                   w.privateKey })) = _
          rw [List.map_map]
          rfl
        · rw [htxv, calculateHash_outputs]
          rfl
        · rw [htxv, calculateHash_fee]
          rfl
        · rw [htxv, calculateHash_timestamp]
          rfl
        · rw [hdata, htxv, calculateHash_hash_eq]
          exact congrArg sha256 (getDataForSigning_sig_update
            (walletDraft w recipient amount fee s ts)
            (fun _ => signMessage sha256
              (walletDraft w recipient amount fee s ts).getDataForSigning
              w.privateKey))

/-- A wallet owning nothing in the genesis ledger. -/
def c8Wallet : Wallet := Wallet.make hashDemo "emptyKey"

/-- C8 counterexample: with an empty wallet and amount = fee = 0 the owned
total (zero) is not less than amount + fee, yet `createTransaction`
returns null through its separate no-UTXO guard, a case the claim omits. -/
theorem c8_counterexample :
    Wallet.getUtxos c8Wallet s0 = []
    ∧ ¬ (((Wallet.getUtxos c8Wallet s0).map (fun u => u.output.amount)).sum
          < 0 + 0)
    ∧ Wallet.createTransaction hashDemo c8Wallet "recipient" 0 0 s0 0
        = Except.ok none := by
  refine ⟨by decide, by decide, ?_⟩
  rfl

/-- A funded wallet for the success path of `createTransaction`. -/
def c8FundedWallet : Wallet := Wallet.make hashDemo "fundedKey"

/-- A ledger holding two UTXOs of the funded wallet, listed newest-height
first so that coin selection must sort by height before accumulating. -/
def c8FundedState : Blockchain :=
  { chain := [], difficulty := 1, mempool := [],
    utxoSet :=
      [(utxoKey "fa" 0,
        { txHash := "fa", outputIndex := 0,
          output := { amount := 30, recipientAddress := c8FundedWallet.address },
          blockHeight := 2 }),
       (utxoKey "fb" 0,
        { txHash := "fb", outputIndex := 0,
          output := { amount := 25, recipientAddress := c8FundedWallet.address },
          blockHeight := 1 })] }

/-- The transaction the funded wallet builds for amount 10 and fee 1. -/
def c8Tx : Transaction :=
  (((Wallet.createTransaction hashDemo c8FundedWallet "r" 10 1
      c8FundedState 0).toOption).getD none).getD
    { hash := "", timestamp := 0, inputs := [], outputs := [], fee := 0 }

/-- C8 witness: the funded wallet spends the oldest UTXO (height 1, amount
25) for a payment of 10 with fee 1, pays 10 to the recipient and the
14-unit remainder back to its own address, and signs the input with its
private key over the signable encoding. -/
theorem c8_witness :
    Wallet.createTransaction hashDemo c8FundedWallet "r" 10 1 c8FundedState 0
      = Except.ok (some c8Tx)
    ∧ c8Tx.inputs.map (fun i => (i.previousTxHash, i.outputIndex)) = [("fb", 0)]
    ∧ c8Tx.outputs
        = [{ amount := 10, recipientAddress := "r" },
           { amount := 14, recipientAddress := c8FundedWallet.address }]
    ∧ c8Tx.fee = 1
    ∧ c8Tx.inputs.map (fun i => i.signature)
        = [signMessage hashDemo c8Tx.getDataForSigning
            c8FundedWallet.privateKey] := by
  have h := (c8_createTransaction_spec hashDemo c8FundedWallet "r" 10 1
      c8FundedState 0).2.2 c8Tx (by rfl)
  refine ⟨by rfl, by decide, ?_, h.2.2.2.2.2.2.1, ?_⟩
  · rw [h.2.2.2.2.2.1]
    decide
  · rw [h.2.2.2.2.1]
    decide

/-- C9: the merkle root hashes the empty input on the empty list, returns
the element itself on a singleton, and otherwise reduces one pairwise
combination level (duplicating the last element of an odd level) and
recurses to a single digest; it is deterministic — equal digest lists give
equal roots — and order-sensitive: whenever the hash separates the two
concatenation orders of a pair, swapping the two entries changes the root,
which the demo hash exhibits concretely. -/
theorem c9_merkle_root_spec :
    (∀ sha256 : String → String, calculateMerkleRoot sha256 [] = sha256 "")
    ∧ (∀ (sha256 : String → String) (h1 : String),
        calculateMerkleRoot sha256 [h1] = h1)
    ∧ (∀ (sha256 : String → String) (h1 h2 : String) (rest : List String),
        calculateMerkleRoot sha256 (h1 :: h2 :: rest)
          = calculateMerkleRoot sha256 (combinePairs sha256 (h1 :: h2 :: rest)))
    ∧ (∀ (sha256 : String → String) (a b c : String),
        combinePairs sha256 [a, b, c] = [sha256 (a ++ b), sha256 (c ++ c)])
    ∧ (∀ (sha256 : String → String) (l1 l2 : List String),
        l1 = l2 → calculateMerkleRoot sha256 l1 = calculateMerkleRoot sha256 l2)
    ∧ (∀ (sha256 : String → String) (x y : String),
        sha256 (x ++ y) ≠ sha256 (y ++ x) →
        calculateMerkleRoot sha256 [x, y] ≠ calculateMerkleRoot sha256 [y, x])
    ∧ calculateMerkleRoot hashDemo ["x", "y"]
        ≠ calculateMerkleRoot hashDemo ["y", "x"] := by
  refine ⟨fun _ => rfl, fun _ _ => rfl, ?_, fun _ _ _ _ => rfl, ?_, ?_, by decide⟩
  · intro sha256 h1 h2 rest
    exact calculateMerkleRoot_eq_step sha256 h1 h2 rest
  · intro sha256 l1 l2 h
    rw [h]
  · intro sha256 x y hne
    have e1 : calculateMerkleRoot sha256 [x, y] = sha256 (x ++ y) := rfl
    have e2 : calculateMerkleRoot sha256 [y, x] = sha256 (y ++ x) := rfl
    rw [e1, e2]
    exact hne

/-- Lookup of the single output of a one-output transaction right after
its outputs are inserted. -/
theorem lookupEntry_insertTxOutputs_single (tx : Transaction)
    (o : TransactionOutput) (height : Nat) (m : List (String × UTXO))
    (ho : tx.outputs = [o]) :
    lookupEntry (insertTxOutputs tx height m) (utxoKey tx.hash 0)
      = some { txHash := tx.hash, outputIndex := 0, output := o,
               blockHeight := height } := by
  unfold insertTxOutputs
  rw [ho]
  exact lookupEntry_setEntry_self _ _ m

/-- C10: `addBlock` never value-checks the first transaction of a block:
whenever the recomputed block carries a structurally coinbase head
transaction, valid non-coinbase remaining transactions, proof-of-work,
previous-hash linkage to the head and an in-bound timestamp, admission
succeeds whatever the coinbase output amounts are — zero, negative, or
beyond the mining reward and the supply cap — the block is appended, and
the coinbase output is inserted into the UTXO set untouched, so the
supply-cap and positive-amount guarantees constrain only blocks assembled
by `mineBlock`. -/
theorem c10_addBlock_skips_coinbase_value_checks (sha256 : String → String)
    (now : Int) (s : Blockchain) (b : Block) (cb : Transaction)
    (rest : List Transaction) (q : Block)
    (htx : (Block.calculateHash sha256 b).transactions = cb :: rest)
    (hcb : cb.isCoinbase = true)
    (hrest : rest.any (fun t => t.isCoinbase) = false)
    (hrestv : rest.all (fun tx => Transaction.isValid sha256 tx s.utxoSet) = true)
    (hpow : isValidProofOfWork (Block.calculateHash sha256 b).hash
      (Block.calculateHash sha256 b).header.difficulty = true)
    (hlatest : s.getLatestBlock = some q)
    (hprev : (Block.calculateHash sha256 b).header.previousBlockHash = q.hash)
    (hts : (Block.calculateHash sha256 b).header.timestamp
      ≤ now + 2 * 60 * 60 * 1000) :
    (Blockchain.addBlock sha256 now s b).1 = true
    ∧ (Blockchain.addBlock sha256 now s b).2.chain
        = s.chain ++ [Block.calculateHash sha256 b]
    ∧ (∀ o : TransactionOutput, cb.outputs = [o] →
        (∀ t ∈ rest, ∀ i ∈ t.inputs,
          utxoKey i.previousTxHash i.outputIndex ≠ utxoKey cb.hash 0) →
        (∀ t ∈ rest, ∀ j, j < t.outputs.length →
          utxoKey t.hash j ≠ utxoKey cb.hash 0) →
        lookupEntry (Blockchain.addBlock sha256 now s b).2.utxoSet
            (utxoKey cb.hash 0)
          = some { txHash := cb.hash, outputIndex := 0, output := o,
                   blockHeight := (Block.calculateHash sha256 b).height }) := by
  have hvr : (Block.isValidRun sha256 now b s.getLatestBlock).1 = true :=
    isValidRun_true_of sha256 now b s.getLatestBlock cb rest hpow
      (fun q2 hq2 => by
        rw [hlatest] at hq2
        cases hq2
        exact hprev)
      hts htx hcb hrest
  have hdrop : (Block.calculateHash sha256 b).transactions.drop 1 = rest := by
    rw [htx]
    rfl
  have hmain : Blockchain.addBlock sha256 now s b
      = (true, Blockchain.adjustDifficulty
          { s with
            chain := s.chain ++ [Block.calculateHash sha256 b]
            utxoSet := updateUtxoSetForBlock (Block.calculateHash sha256 b)
              s.utxoSet
            mempool := removeMinedTransactions (Block.calculateHash sha256 b)
              s.mempool }) := by
    simp only [Blockchain.addBlock, isValidRun_snd, hvr, Bool.not_true,
      Bool.false_eq_true, if_false, hdrop, hrestv]
  refine ⟨?_, ?_, ?_⟩
  · rw [hmain]
  · rw [hmain]
    exact (adjustDifficulty_fields _).1
  · intro o ho hinf houtf
    have h2 := congrArg Prod.snd hmain
    rw [h2, (adjustDifficulty_fields _).2.1]
    show lookupEntry
        (updateUtxoSetForBlock (Block.calculateHash sha256 b) s.utxoSet)
        (utxoKey cb.hash 0) = _
    simp only [updateUtxoSetForBlock, htx, List.foldl_cons, hcb, if_true]
    rw [lookupEntry_updateRest sha256 (Block.calculateHash sha256 b).height
      (utxoKey cb.hash 0) rest _ hinf houtf]
    exact lookupEntry_insertTxOutputs_single cb o
      (Block.calculateHash sha256 b).height s.utxoSet ho

/-- The head block of the hand-built admission scenario. -/
def c10Head : Block := Block.build "" [] 1 0 0

def c10State : Blockchain :=
  { chain := [c10Head], difficulty := 1, utxoSet := [], mempool := [] }

/-- A structurally well-formed coinbase paying a negative amount. -/
def c10EvilCb : Transaction :=
  Transaction.createCoinbase hashDemo "evil" 2 (-5) 0

def c10Block : Block := Block.build "" [c10EvilCb] 1 1 0

/-- C10 witness: the hand-built block whose coinbase pays a negative
amount is admitted onto a concrete one-block ledger even though
`Transaction.isValid` rejects that coinbase, and the negative output lands
in the UTXO set. -/
theorem c10_witness :
    Transaction.isValid hashDemo c10EvilCb c10State.utxoSet = false
    ∧ c10EvilCb.outputs.map (fun o => o.amount) = [-5]
    ∧ (Blockchain.addBlock hashDemo 0 c10State c10Block).1 = true
    ∧ (Blockchain.addBlock hashDemo 0 c10State c10Block).2.chain
        = c10State.chain ++ [Block.calculateHash hashDemo c10Block]
    ∧ lookupEntry (Blockchain.addBlock hashDemo 0 c10State c10Block).2.utxoSet
        (utxoKey c10EvilCb.hash 0)
      = some { txHash := c10EvilCb.hash, outputIndex := 0,
               output := { amount := -5, recipientAddress := "evil" },
               blockHeight := (Block.calculateHash hashDemo c10Block).height } := by
  have h := c10_addBlock_skips_coinbase_value_checks hashDemo 0 c10State
    c10Block c10EvilCb [] c10Head (by decide) (by decide) (by decide)
    (by decide) (by decide) (by decide) (by decide) (by decide)
  exact ⟨by decide, by decide, h.1, h.2.1,
    h.2.2 { amount := -5, recipientAddress := "evil" } (by decide)
      (by decide) (by decide)⟩

end Marscoin
